import Mathlib

/-!
A shallow embedding of the Poco `TaskManager` (src/Foundation/include/Poco/TaskManager.h)
together with the task lifecycle it coordinates.  The repository fragment contains only
the `TaskManager` header (declarations plus the inline `count()`); the method bodies,
`Task.h`/`Task.cpp` and `AutoPtr.h` are not part of the fragment, so every operation
below whose body is missing from the sources is modelled from the specification's
description of that operation and marked `Modelled from the spec:`.

Machine integers do not occur; time is modelled as a natural number of milliseconds,
progress values as rationals.
-/

set_option autoImplicit false

namespace Poco

/-- Modelled from the spec: the task lifecycle states
`{Idle, Starting, Running, Cancelling, Finished, Failed}` (the `Task::TaskState`
enumeration of `Task.h`, which is not under src/). -/
inductive TaskState where
  | idle
  | starting
  | running
  | cancelling
  | finished
  | failed
deriving DecidableEq, Repr

/-- `Finished` and `Failed` are the terminal states. -/
def TaskState.isTerminal : TaskState → Bool
  | .finished => true
  | .failed => true
  | _ => false

/-- Modelled from the spec: the task state transition graph of section 4.1
(`Task.h`/`Task.cpp` are not under src/).
`Idle → Starting → Running → {Cancelling} → Finished | Failed`. -/
def canTransition : TaskState → TaskState → Bool
  | .idle, .starting => true
  | .starting, .running => true
  | .running, .cancelling => true
  | .running, .finished => true
  | .running, .failed => true
  | .cancelling, .finished => true
  | .cancelling, .failed => true
  | _, _ => false

/-- One step of an observed state sequence is fine when the state is unchanged
(no transition happened between the two observations) or it follows an edge of
the transition graph. -/
def stepOk (a b : TaskState) : Bool := decide (a = b) || canTransition a b

/-- A list of observed states is a path (with stutters) in the transition graph. -/
def pathOk : List TaskState → Bool
  | a :: b :: r => stepOk a b && pathOk (b :: r)
  | _ => true

abbrev TaskId := Nat

/-- Errors raised by a task body (`Poco::Exception`), abstracted to their message. -/
abbrev Err := String

/-- Modelled from the spec: a `Task` is a named, cancellable, progress-reporting
state machine (`Task.h` is not under src/).  The identity field stands for the
object identity of the C++ `Task*`. -/
structure Task where
  id : TaskId
  name : String
  state : TaskState
  progress : Rat
  cancelRequested : Bool
deriving DecidableEq, Repr

def setStarting (u : Task) : Task := { u with state := .starting }

def setRunning (u : Task) : Task := { u with state := .running }

def setCancelling (u : Task) : Task := { u with state := .cancelling }

def setFinished (u : Task) : Task := { u with state := .finished }

def setFailed (u : Task) : Task := { u with state := .failed }

def setProgress (v : Rat) (u : Task) : Task := { u with progress := v }

def setCancelRequested (u : Task) : Task := { u with cancelRequested := true }

/-- The notifications published through the manager's `NotificationCenter`
(`TaskStartedNotification`, `TaskProgressNotification`, `TaskCancelledNotification`,
`TaskFinishedNotification`, `TaskFailedNotification`). -/
inductive Event where
  | started (id : TaskId)
  | progress (id : TaskId) (v : Rat)
  | cancelled (id : TaskId)
  | finished (id : TaskId)
  | failed (id : TaskId) (e : Err)
deriving DecidableEq, Repr

def isTerminalEvFor (id : TaskId) : Event → Bool
  | .finished i => i == id
  | .failed i _ => i == id
  | _ => false

def isStartedFor (id : TaskId) : Event → Bool
  | .started i => i == id
  | _ => false

def isCancelledFor (id : TaskId) : Event → Bool
  | .cancelled i => i == id
  | _ => false

def isProgressFor (id : TaskId) : Event → Bool
  | .progress i _ => i == id
  | _ => false

/-- Number of published events (with timestamps) satisfying a predicate. -/
def countEv (p : Event → Bool) (evts : List (Nat × Event)) : Nat :=
  (evts.filter (fun q => p q.2)).length

/-- The state of a `TaskManager` (TaskManager.h lines 117-123).
`_taskList` is the registry (`std::list<TaskPtr> _taskList`),
`_lastProgressNotification` the throttle timestamp (`Timestamp _lastProgressNotification`,
`none` when no progress notification has been published yet), and `events` the sequence
of notifications posted to the built-in `NotificationCenter`, in publication order,
each tagged with its publication time in milliseconds.
`jobs` models the manager-submitted units still owned by the worker pool,
`foreignJobs` the pool work submitted by other clients of the shared pool, and
`released` records the tasks whose ownership the manager has released
(ghost history used to state the teardown contract). -/
structure TaskManager where
  _taskList : List Task
  _lastProgressNotification : Option Nat
  events : List (Nat × Event)
  jobs : List TaskId
  foreignJobs : Nat
  released : List Task
deriving DecidableEq, Repr

/-- A freshly constructed `TaskManager` (TaskManager.h lines 53-59). -/
def TaskManager.new : TaskManager :=
  { _taskList := []
    _lastProgressNotification := none
    events := []
    jobs := []
    foreignJobs := 0
    released := [] }

/-- `MIN_PROGRESS_NOTIFICATION_INTERVAL` (TaskManager.h line 104), in milliseconds;
the header documents the default: "a TaskProgressNotification will only be sent out
once in 100 milliseconds" (lines 46-47). -/
def MIN_PROGRESS_NOTIFICATION_INTERVAL : Nat := 100

/-- Look a task up by identity. -/
def findTask (l : List Task) (id : TaskId) : Option Task :=
  l.find? (fun t => t.id == id)

def idsOf (l : List Task) : List TaskId := l.map Task.id

/-- `postNotification` (TaskManager.h line 107): append the notification to the
publication sequence of the built-in notification center. -/
def TaskManager.postNotification (m : TaskManager) (now : Nat) (e : Event) : TaskManager :=
  { m with events := m.events ++ [(now, e)] }

/-- Apply `g` to the registered task(s) with the given identity. -/
def updateTaskL (id : TaskId) (g : Task → Task) (l : List Task) : List Task :=
  l.map (fun t => if t.id = id then g t else t)

def TaskManager.updateTask (m : TaskManager) (id : TaskId) (g : Task → Task) : TaskManager :=
  { m with _taskList := updateTaskL id g m._taskList }

/-- Modelled from the spec: the throttle is open when no progress notification was
ever published, or when the elapsed time since the last one is at least the
minimum interval (section 4.2 of the spec; `TaskManager.cpp` is not under src/). -/
def throttleOpen (now : Nat) : Option Nat → Bool
  | none => true
  | some t => decide (MIN_PROGRESS_NOTIFICATION_INTERVAL ≤ now - t)

/-- `taskStarted` (TaskManager.h line 111), modelled from the spec: invoked when a
worker thread begins `run()`; moves the task to `Running` and publishes a started
event, never throttled (sections 4.1 and 4.2). -/
def TaskManager.taskStarted (m : TaskManager) (now : Nat) (id : TaskId) : TaskManager :=
  (m.updateTask id setRunning).postNotification now (.started id)

/-- `taskProgress` (TaskManager.h line 112), modelled from the spec: the stored
progress value is always updated; the progress event is published only when the
whole-manager throttle is open, and publication resets the throttle timestamp
(section 4.2). -/
def TaskManager.taskProgress (m : TaskManager) (now : Nat) (id : TaskId) (v : Rat) : TaskManager :=
  let m1 := m.updateTask id (setProgress v)
  if throttleOpen now m1._lastProgressNotification then
    { m1 with _lastProgressNotification := some now }.postNotification now (.progress id v)
  else
    m1

/-- Modelled from the spec: `Task::cancel` requests cancellation by setting the flag;
it is idempotent, does not block and does not change the state by itself
(section 4.1; `Task.cpp` is not under src/). -/
def TaskManager.requestCancel (m : TaskManager) (id : TaskId) : TaskManager :=
  m.updateTask id setCancelRequested

/-- `taskCancelled` (TaskManager.h line 113), modelled from the spec: when the running
work body observes a pending cancellation request, the task moves from `Running` to
`Cancelling` and a cancelled event is published, never throttled (sections 4.1, 4.2). -/
def TaskManager.taskCancelled (m : TaskManager) (now : Nat) (id : TaskId) : TaskManager :=
  match findTask m._taskList id with
  | some t =>
      if t.cancelRequested ∧ t.state = .running then
        (m.updateTask id setCancelling).postNotification now (.cancelled id)
      else m
  | none => m

/-- Modelled from the spec: release of ownership after a terminal event; the task is
removed from the registry, its pool unit is accounted as completed, and the released
task is recorded in the ghost history (section 4.2). -/
def TaskManager.releaseTask (m : TaskManager) (id : TaskId) : TaskManager :=
  { m with
    _taskList := m._taskList.filter (fun t => !(t.id == id))
    jobs := m.jobs.filter (fun j => !(j == id))
    released := m.released ++ m._taskList.filter (fun t => t.id == id) }

/-- `taskFinished` (TaskManager.h line 114), modelled from the spec: move the task to
`Finished`, publish the finished event (never throttled), then release ownership
(section 4.2). -/
def TaskManager.taskFinished (m : TaskManager) (now : Nat) (id : TaskId) : TaskManager :=
  ((m.updateTask id setFinished).postNotification now (.finished id)).releaseTask id

/-- `taskFailed` (TaskManager.h line 115), modelled from the spec: move the task to
`Failed`, publish the failed event carrying the error (never throttled), then release
ownership (section 4.2). -/
def TaskManager.taskFailed (m : TaskManager) (now : Nat) (id : TaskId) (e : Err) : TaskManager :=
  ((m.updateTask id setFailed).postNotification now (.failed id e)).releaseTask id

/-- Modelled from the spec: the registration effect of `start` once the precondition
holds: ownership transfers, the task moves to `Starting`, it is appended to the
registry and one unit of work is submitted to the pool (section 4.2). -/
def TaskManager.registerTask (m : TaskManager) (pTask : Task) : TaskManager :=
  { m with
    _taskList := m._taskList ++ [setStarting pTask]
    jobs := m.jobs ++ [pTask.id] }

/-- `start` (TaskManager.h lines 64-69), modelled from the spec: validates that the
task is `Idle` (else a precondition error is returned synchronously to the caller),
transfers ownership, registers the task and submits it to the pool with the cpu
affinity hint; it returns without executing the task (section 4.2).  The affinity
hint is consumed by the external worker pool and has no effect on the manager. -/
def TaskManager.start (m : TaskManager) (pTask : Task) (_cpu : Int) :
    Except Err TaskManager :=
  if pTask.state = .idle then
    Except.ok (m.registerTask pTask)
  else
    Except.error "task not idle"

/-- The atomic actions of a task body (`Task::runTask`, supplied by the task's
creator): report a progress value, or poll the cancellation flag. -/
inductive RunStep where
  | report (v : Rat)
  | poll
deriving DecidableEq, Repr

/-- A task body: its sequence of actions, and its outcome (`none` when `run()`
returns normally, `some e` when it raises the error `e`). -/
structure Body where
  steps : List RunStep
  outcome : Option Err
deriving DecidableEq, Repr

/-- Execute one body action through the manager's event pipeline. -/
def TaskManager.runStep (m : TaskManager) (now : Nat) (id : TaskId) :
    RunStep → TaskManager
  | .report v => m.taskProgress now id v
  | .poll => m.taskCancelled now id

/-- Modelled from the spec: the manager's execution wrapper around `Task::run`
(section 2): publish the started event and enter `Running`, execute the body
actions, and on completion publish exactly one terminal event — `Finished` when the
body returns (also after honouring cancellation), `Failed` carrying the error when
the body raises — and release the task. -/
def TaskManager.runTask (m : TaskManager) (now : Nat) (id : TaskId) (b : Body) :
    TaskManager :=
  let m1 := m.taskStarted now id
  let m2 := b.steps.foldl (fun acc s => acc.runStep now id s) m1
  match b.outcome with
  | none => m2.taskFinished now id
  | some e => m2.taskFailed now id e

/-- `startSync` (TaskManager.h lines 71-74), modelled from the spec: same
ownership/registration contract as `start`, but the task's full lifecycle executes
inline on the calling thread before returning (section 4.2). -/
def TaskManager.startSync (m : TaskManager) (now : Nat) (pTask : Task) (b : Body) :
    Except Err TaskManager :=
  match m.start pTask (-1) with
  | .ok m1 => Except.ok (m1.runTask now pTask.id b)
  | .error e => Except.error e

/-- `taskList` (TaskManager.h lines 89-90): returns a copy of the internal task
list. -/
def TaskManager.taskList (m : TaskManager) : List Task := m._taskList

/-- `count` (TaskManager.h lines 92-93 and 131-136): the number of tasks in the
internal task list. -/
def TaskManager.count (m : TaskManager) : Nat := m._taskList.length

/-- One iteration of `cancelAll`: request cancellation when the snapshot entry is in
a non-terminal state, otherwise leave it alone. -/
def TaskManager.cancelStep (acc : TaskManager) (t : Task) : TaskManager :=
  if t.state.isTerminal then acc else acc.requestCancel t.id

/-- `cancelAll` (TaskManager.h lines 76-77), modelled from the spec: iterate a
snapshot of the registry and request cancellation of every task found in a
non-terminal state; it does not block for completion (section 4.2). -/
def TaskManager.cancelAll (m : TaskManager) : TaskManager :=
  m.taskList.foldl TaskManager.cancelStep m

/-- `joinAll` (TaskManager.h lines 79-87): may return only once the manager's thread
pool reports no outstanding work at all — including, as the header documents, work
submitted to the shared pool by other facilities. -/
def TaskManager.joinAllReady (m : TaskManager) : Bool :=
  decide (m.jobs = []) && decide (m.foreignJobs = 0)

/-! ## The interleaved execution model

A trace is a chronological list of timed commands, each command being one of the
manager/task interactions above, possibly concerning different tasks (worker
threads interleave arbitrarily).  `validCmd` encodes the discipline under which
the callbacks are invoked: each pipeline callback is issued by the thread executing
the task, in wrapper order (spec section 4.2), and foreign pool work completes only
when outstanding. -/

inductive Cmd where
  | cstart (t : Task)
  | cstarted (id : TaskId)
  | cprogress (id : TaskId) (v : Rat)
  | creqCancel (id : TaskId)
  | cpoll (id : TaskId)
  | cfinished (id : TaskId)
  | cfailed (id : TaskId) (e : Err)
  | cforeignStart
  | cforeignDone
deriving DecidableEq, Repr

/-- The registered task with this identity is currently in state `s`. -/
def regStateIs (m : TaskManager) (id : TaskId) (s : TaskState) : Bool :=
  match findTask m._taskList id with
  | some t => decide (t.state = s)
  | none => false

/-- The task's body is currently executing (state `Running` or `Cancelling`). -/
def runnable (m : TaskManager) (id : TaskId) : Bool :=
  regStateIs m id .running || regStateIs m id .cancelling

/-- The identity was never seen by this manager (referential uniqueness,
spec section 3). -/
def freshId (m : TaskManager) (id : TaskId) : Bool :=
  decide (id ∉ idsOf m._taskList) && decide (id ∉ idsOf m.released)

def validCmd (m : TaskManager) : Cmd → Bool
  | .cstart t => decide (t.state = .idle) && freshId m t.id
  | .cstarted id => regStateIs m id .starting
  | .cprogress id _ => runnable m id
  | .creqCancel _ => true
  | .cpoll id => runnable m id
  | .cfinished id => runnable m id
  | .cfailed id _ => runnable m id
  | .cforeignStart => true
  | .cforeignDone => decide (0 < m.foreignJobs)

def step (now : Nat) (c : Cmd) (m : TaskManager) : TaskManager :=
  match c with
  | .cstart t => m.registerTask t
  | .cstarted id => m.taskStarted now id
  | .cprogress id v => m.taskProgress now id v
  | .creqCancel id => m.requestCancel id
  | .cpoll id => m.taskCancelled now id
  | .cfinished id => m.taskFinished now id
  | .cfailed id e => m.taskFailed now id e
  | .cforeignStart => { m with foreignJobs := m.foreignJobs + 1 }
  | .cforeignDone => { m with foreignJobs := m.foreignJobs - 1 }

def run1 (m : TaskManager) (c : Nat × Cmd) : TaskManager := step c.1 c.2 m

def runTrace (m : TaskManager) (cs : List (Nat × Cmd)) : TaskManager :=
  cs.foldl run1 m

def validTrace : TaskManager → List (Nat × Cmd) → Bool
  | _, [] => true
  | m, c :: cs => validCmd m c.2 && validTrace (run1 m c) cs

/-- Timestamps are chronological. -/
def monoTimes : List Nat → Bool
  | a :: b :: r => decide (a ≤ b) && monoTimes (b :: r)
  | _ => true

/-- The identities of the tasks submitted through `start` in a trace. -/
def startedIdsOf (cs : List (Nat × Cmd)) : List TaskId :=
  cs.filterMap (fun c => match c.2 with | .cstart t => some t.id | _ => none)

/-- The state a task is observed in: its registry entry while registered, its
release record afterwards. -/
def stateOf (m : TaskManager) (id : TaskId) : Option TaskState :=
  match findTask m._taskList id with
  | some t => some t.state
  | none => (findTask m.released id).map Task.state

/-- The states a given task is observed in along a trace (one sample before each
step and one after the last). -/
def observed (m : TaskManager) (id : TaskId) : List (Nat × Cmd) → List TaskState
  | [] => (stateOf m id).toList
  | c :: cs => (stateOf m id).toList ++ observed (run1 m c) id cs

/-- The publication times of the progress events, in publication order. -/
def progressTimes (evts : List (Nat × Event)) : List Nat :=
  evts.filterMap (fun p => match p.2 with | .progress _ _ => some p.1 | _ => none)

/-- Consecutive entries at least the minimum interval apart. -/
def sepOk : List Nat → Bool
  | a :: b :: r => decide (a + MIN_PROGRESS_NOTIFICATION_INTERVAL ≤ b) && sepOk (b :: r)
  | _ => true

/-! ## Reference-counted task handles

`TaskPtr` is `AutoPtr<Task>` (TaskManager.h line 50) and `taskList()` returns a copy
of the handles.  `AutoPtr.h` is not under src/; the reference counting below is
modelled from the spec's ownership story and the documented `AutoPtr` contract the
header relies on: duplicating a handle increments the count, releasing a handle
decrements it, and the object is destroyed exactly when the last handle is
released. -/

structure RcTask where
  refs : Nat
  destroyed : Bool
deriving DecidableEq, Repr

/-- Copying a handle (as `taskList()` does for each registry entry). -/
def RcTask.dup (o : RcTask) : RcTask := { o with refs := o.refs + 1 }

/-- Dropping a handle (as the manager does on release, and a snapshot holder does
when discarding the snapshot): destroys the object exactly when the last reference
is dropped. -/
def RcTask.release (o : RcTask) : RcTask :=
  if o.refs ≤ 1 then { refs := 0, destroyed := true } else { o with refs := o.refs - 1 }

/-- Dropping `n` handles in sequence. -/
def releaseN : Nat → RcTask → RcTask
  | 0, o => o
  | n + 1, o => releaseN n o.release

/-! ## Basic lemmas about the registry operations -/

theorem findTask_cons (t : Task) (l : List Task) (id : TaskId) :
    findTask (t :: l) id = if t.id = id then some t else findTask l id := by
  by_cases h : t.id = id
  · simp [findTask, List.find?_cons_of_pos, h]
  · simp [findTask, List.find?_cons_of_neg, h]

theorem findTask_append_none {l1 : List Task} {id : TaskId} (l2 : List Task)
    (h : findTask l1 id = none) : findTask (l1 ++ l2) id = findTask l2 id := by
  induction l1 with
  | nil => rfl
  | cons t l ih =>
      rw [findTask_cons] at h
      by_cases ht : t.id = id
      · simp [ht] at h
      · rw [List.cons_append, findTask_cons, if_neg ht]
        exact ih (by simpa [ht] using h)

theorem findTask_append_some {l1 : List Task} {id : TaskId} {t : Task} (l2 : List Task)
    (h : findTask l1 id = some t) : findTask (l1 ++ l2) id = some t := by
  induction l1 with
  | nil => simp [findTask] at h
  | cons u l ih =>
      rw [findTask_cons] at h
      by_cases hu : u.id = id
      · rw [if_pos hu] at h
        rw [List.cons_append, findTask_cons, if_pos hu]
        exact h
      · rw [if_neg hu] at h
        rw [List.cons_append, findTask_cons, if_neg hu]
        exact ih h

theorem findTask_eq_none_of_not_mem {l : List Task} {id : TaskId}
    (h : id ∉ idsOf l) : findTask l id = none := by
  induction l with
  | nil => rfl
  | cons t l ih =>
      rw [findTask_cons]
      have h1 : t.id ≠ id := by
        intro he
        exact h (by simp [idsOf, he])
      rw [if_neg h1]
      exact ih (fun hm => h (by simp [idsOf] at hm ⊢; exact Or.inr hm))

theorem findTask_some_facts {l : List Task} {id : TaskId} {t : Task}
    (h : findTask l id = some t) : t.id = id ∧ t ∈ l := by
  induction l with
  | nil => simp [findTask] at h
  | cons u l ih =>
      rw [findTask_cons] at h
      by_cases hu : u.id = id
      · rw [if_pos hu] at h
        cases h
        exact ⟨hu, List.mem_cons_self _ _⟩
      · rw [if_neg hu] at h
        rcases ih h with ⟨h1, h2⟩
        exact ⟨h1, List.mem_cons_of_mem u h2⟩

theorem findTask_updateTaskL_same (g : Task → Task) (hg : ∀ t, (g t).id = t.id)
    (l : List Task) (id : TaskId) :
    findTask (updateTaskL id g l) id = (findTask l id).map g := by
  induction l with
  | nil => rfl
  | cons t l ih =>
      by_cases ht : t.id = id
      · simp only [updateTaskL, List.map_cons, if_pos ht]
        rw [findTask_cons, findTask_cons, if_pos ht, if_pos (by rw [hg, ht])]
        rfl
      · simp only [updateTaskL, List.map_cons, if_neg ht]
        rw [findTask_cons, findTask_cons, if_neg ht, if_neg ht]
        exact ih

theorem findTask_updateTaskL_other (g : Task → Task) (hg : ∀ t, (g t).id = t.id)
    (l : List Task) {id id2 : TaskId} (h : id ≠ id2) :
    findTask (updateTaskL id2 g l) id = findTask l id := by
  induction l with
  | nil => rfl
  | cons t l ih =>
      by_cases ht : t.id = id2
      · simp only [updateTaskL, List.map_cons, if_pos ht]
        have h2 : (g t).id ≠ id := by rw [hg, ht]; exact fun he => h he.symm
        have h3 : t.id ≠ id := by rw [ht]; exact fun he => h he.symm
        rw [findTask_cons, findTask_cons, if_neg h2, if_neg h3]
        exact ih
      · simp only [updateTaskL, List.map_cons, if_neg ht]
        rw [findTask_cons, findTask_cons]
        by_cases h3 : t.id = id
        · rw [if_pos h3, if_pos h3]
        · rw [if_neg h3, if_neg h3]
          exact ih

theorem idsOf_updateTaskL (g : Task → Task) (hg : ∀ t, (g t).id = t.id)
    (l : List Task) (id : TaskId) : idsOf (updateTaskL id g l) = idsOf l := by
  induction l with
  | nil => rfl
  | cons t l ih =>
      by_cases ht : t.id = id
      · simp only [updateTaskL, idsOf, List.map_cons, if_pos ht] at *
        rw [hg]
        exact congrArg _ ih
      · simp only [updateTaskL, idsOf, List.map_cons, if_neg ht] at *
        exact congrArg _ ih

theorem findTask_filter_out_same (l : List Task) (id : TaskId) :
    findTask (l.filter (fun t => !(t.id == id))) id = none := by
  apply findTask_eq_none_of_not_mem
  intro hm
  simp only [idsOf, List.mem_map] at hm
  rcases hm with ⟨t, ht, hid⟩
  rw [List.mem_filter] at ht
  simp [hid] at ht

theorem findTask_filter_out_other (l : List Task) {id id2 : TaskId} (h : id ≠ id2) :
    findTask (l.filter (fun t => !(t.id == id2))) id = findTask l id := by
  induction l with
  | nil => rfl
  | cons t l ih =>
      by_cases ht : t.id = id2
      · rw [List.filter_cons_of_neg (by simp [ht])]
        rw [findTask_cons, if_neg (by rw [ht]; exact fun he => h he.symm)]
        exact ih
      · rw [List.filter_cons_of_pos (by simp [ht])]
        rw [findTask_cons, findTask_cons]
        by_cases h3 : t.id = id
        · rw [if_pos h3, if_pos h3]
        · rw [if_neg h3, if_neg h3]
          exact ih

theorem findTask_filter_keep_same (l : List Task) (id : TaskId) :
    findTask (l.filter (fun t => t.id == id)) id = findTask l id := by
  induction l with
  | nil => rfl
  | cons t l ih =>
      by_cases ht : t.id = id
      · rw [List.filter_cons_of_pos (by simp [ht])]
        rw [findTask_cons, findTask_cons, if_pos ht, if_pos ht]
      · rw [List.filter_cons_of_neg (by simp [ht])]
        rw [findTask_cons, if_neg ht]
        exact ih

theorem findTask_filter_keep_other (l : List Task) {id id2 : TaskId} (h : id ≠ id2) :
    findTask (l.filter (fun t => t.id == id2)) id = none := by
  apply findTask_eq_none_of_not_mem
  intro hm
  simp only [idsOf, List.mem_map] at hm
  rcases hm with ⟨t, ht, hid⟩
  rw [List.mem_filter] at ht
  have := ht.2
  simp only [beq_iff_eq] at this
  exact h (hid ▸ this ▸ rfl)

theorem idsOf_filter_out (l : List Task) (id : TaskId) :
    idsOf (l.filter (fun t => !(t.id == id))) =
      (idsOf l).filter (fun j => !(j == id)) := by
  induction l with
  | nil => rfl
  | cons t l ih =>
      by_cases ht : t.id = id
      · rw [List.filter_cons_of_neg (by simp [ht])]
        simp only [idsOf, List.map_cons]
        rw [List.filter_cons_of_neg (by simp [ht])]
        exact ih
      · rw [List.filter_cons_of_pos (by simp [ht])]
        simp only [idsOf, List.map_cons]
        rw [List.filter_cons_of_pos (by simp [ht])]
        rw [idsOf] at ih
        rw [ih]
        rfl

theorem idsOf_filter_keep_nodup {l : List Task} {id : TaskId}
    (hn : (idsOf l).Nodup) (hm : id ∈ idsOf l) :
    idsOf (l.filter (fun t => t.id == id)) = [id] := by
  induction l with
  | nil => simp [idsOf] at hm
  | cons t l ih =>
      simp only [idsOf, List.map_cons, List.nodup_cons] at hn
      by_cases ht : t.id = id
      · rw [List.filter_cons_of_pos (by simp [ht])]
        simp only [idsOf, List.map_cons, ht]
        have hnone : l.filter (fun t => t.id == id) = [] := by
          apply List.filter_eq_nil_iff.mpr
          intro u hu hbeq
          simp only [beq_iff_eq] at hbeq
          apply hn.1
          rw [ht, ← hbeq]
          exact List.mem_map_of_mem Task.id hu
        rw [hnone]
        rfl
      · rw [List.filter_cons_of_neg (by simp [ht])]
        apply ih hn.2
        simp only [idsOf, List.map_cons, List.mem_cons] at hm
        rcases hm with hm | hm
        · exact absurd hm.symm ht
        · exact hm

theorem idsOf_filter_keep_not_mem {l : List Task} {id : TaskId}
    (hm : id ∉ idsOf l) : l.filter (fun t => t.id == id) = [] := by
  apply List.filter_eq_nil_iff.mpr
  intro u hu hbeq
  simp only [beq_iff_eq] at hbeq
  exact hm (hbeq ▸ List.mem_map_of_mem Task.id hu)

theorem idsOf_append (l1 l2 : List Task) :
    idsOf (l1 ++ l2) = idsOf l1 ++ idsOf l2 := by
  simp [idsOf]

theorem countEv_append (p : Event → Bool) (e1 e2 : List (Nat × Event)) :
    countEv p (e1 ++ e2) = countEv p e1 + countEv p e2 := by
  simp [countEv, List.filter_append]

theorem progressTimes_append (e1 e2 : List (Nat × Event)) :
    progressTimes (e1 ++ e2) = progressTimes e1 ++ progressTimes e2 := by
  simp [progressTimes, List.filterMap_append]

/-! ## How each pipeline operation affects the observed state of a task -/

theorem stateOf_taskStarted_same {m : TaskManager} {id : TaskId} {t : Task}
    (h : findTask m._taskList id = some t) (now : Nat) :
    stateOf (m.taskStarted now id) id = some .running := by
  simp only [TaskManager.taskStarted, TaskManager.updateTask, TaskManager.postNotification,
    stateOf]
  rw [findTask_updateTaskL_same setRunning (fun _ => rfl), h]
  rfl

theorem stateOf_taskStarted_other {m : TaskManager} {id id2 : TaskId} (h : id ≠ id2)
    (now : Nat) : stateOf (m.taskStarted now id2) id = stateOf m id := by
  simp only [TaskManager.taskStarted, TaskManager.updateTask, TaskManager.postNotification,
    stateOf]
  rw [findTask_updateTaskL_other setRunning (fun _ => rfl) _ h]

theorem taskProgress_taskList (m : TaskManager) (now : Nat) (id : TaskId) (v : Rat) :
    (m.taskProgress now id v)._taskList = updateTaskL id (setProgress v) m._taskList := by
  by_cases hopen : throttleOpen now m._lastProgressNotification = true
  · simp [TaskManager.taskProgress, TaskManager.updateTask, TaskManager.postNotification, hopen]
  · simp [TaskManager.taskProgress, TaskManager.updateTask, TaskManager.postNotification, hopen]

theorem taskProgress_released (m : TaskManager) (now : Nat) (id : TaskId) (v : Rat) :
    (m.taskProgress now id v).released = m.released := by
  by_cases hopen : throttleOpen now m._lastProgressNotification = true
  · simp [TaskManager.taskProgress, TaskManager.updateTask, TaskManager.postNotification, hopen]
  · simp [TaskManager.taskProgress, TaskManager.updateTask, TaskManager.postNotification, hopen]

theorem taskProgress_jobs (m : TaskManager) (now : Nat) (id : TaskId) (v : Rat) :
    (m.taskProgress now id v).jobs = m.jobs := by
  by_cases hopen : throttleOpen now m._lastProgressNotification = true
  · simp [TaskManager.taskProgress, TaskManager.updateTask, TaskManager.postNotification, hopen]
  · simp [TaskManager.taskProgress, TaskManager.updateTask, TaskManager.postNotification, hopen]

theorem taskProgress_foreignJobs (m : TaskManager) (now : Nat) (id : TaskId) (v : Rat) :
    (m.taskProgress now id v).foreignJobs = m.foreignJobs := by
  by_cases hopen : throttleOpen now m._lastProgressNotification = true
  · simp [TaskManager.taskProgress, TaskManager.updateTask, TaskManager.postNotification, hopen]
  · simp [TaskManager.taskProgress, TaskManager.updateTask, TaskManager.postNotification, hopen]

theorem stateOf_state_preserving_update {m : TaskManager} (g : Task → Task)
    (hg_id : ∀ u, (g u).id = u.id) (hg_st : ∀ u, (g u).state = u.state)
    (id2 id : TaskId) :
    stateOf { m with _taskList := updateTaskL id2 g m._taskList } id = stateOf m id := by
  by_cases h : id = id2
  · subst h
    simp only [stateOf]
    rw [findTask_updateTaskL_same g hg_id]
    cases hr : findTask m._taskList id
    · simp
    · simp [hg_st]
  · simp only [stateOf]
    rw [findTask_updateTaskL_other g hg_id _ h]

theorem stateOf_taskProgress (m : TaskManager) (now : Nat) (id2 id : TaskId) (v : Rat) :
    stateOf (m.taskProgress now id2 v) id = stateOf m id := by
  have h1 : stateOf (m.taskProgress now id2 v) id =
      stateOf { m with _taskList := updateTaskL id2 (setProgress v) m._taskList } id := by
    simp only [stateOf, taskProgress_taskList, taskProgress_released]
  rw [h1]
  exact stateOf_state_preserving_update (setProgress v) (fun _ => rfl) (fun _ => rfl) id2 id

theorem stateOf_requestCancel (m : TaskManager) (id2 id : TaskId) :
    stateOf (m.requestCancel id2) id = stateOf m id := by
  simp only [TaskManager.requestCancel, TaskManager.updateTask]
  exact stateOf_state_preserving_update setCancelRequested (fun _ => rfl) (fun _ => rfl) id2 id

theorem stateOf_registerTask_same {m : TaskManager} {t : Task}
    (h : findTask m._taskList t.id = none) :
    stateOf (m.registerTask t) t.id = some .starting := by
  simp only [TaskManager.registerTask, stateOf]
  rw [findTask_append_none _ h, findTask_cons]
  simp [setStarting]

theorem stateOf_registerTask_other {m : TaskManager} {t : Task} {id : TaskId}
    (h : t.id ≠ id) : stateOf (m.registerTask t) id = stateOf m id := by
  simp only [TaskManager.registerTask, stateOf]
  cases hr : findTask m._taskList id with
  | some u => rw [findTask_append_some _ hr]
  | none =>
      rw [findTask_append_none _ hr, findTask_cons]
      simp only [setStarting, if_neg h]
      rfl

theorem taskCancelled_eq_of_trigger {m : TaskManager} {id : TaskId} {t : Task}
    (hf : findTask m._taskList id = some t)
    (hc : t.cancelRequested = true) (hs : t.state = .running) (now : Nat) :
    m.taskCancelled now id =
      (m.updateTask id setCancelling).postNotification now (.cancelled id) := by
  simp [TaskManager.taskCancelled, hf, hc, hs]

theorem taskCancelled_eq_self {m : TaskManager} {id : TaskId} (now : Nat)
    (h : ∀ t, findTask m._taskList id = some t →
      ¬(t.cancelRequested = true ∧ t.state = .running)) :
    m.taskCancelled now id = m := by
  cases hf : findTask m._taskList id with
  | none => simp [TaskManager.taskCancelled, hf]
  | some t =>
      have := h t hf
      simp only [TaskManager.taskCancelled, hf]
      rw [if_neg this]

theorem stateOf_taskCancelled_same_trigger {m : TaskManager} {id : TaskId} {t : Task}
    (hf : findTask m._taskList id = some t)
    (hc : t.cancelRequested = true) (hs : t.state = .running) (now : Nat) :
    stateOf (m.taskCancelled now id) id = some .cancelling := by
  rw [taskCancelled_eq_of_trigger hf hc hs]
  simp only [TaskManager.updateTask, TaskManager.postNotification, stateOf]
  rw [findTask_updateTaskL_same setCancelling (fun _ => rfl), hf]
  rfl

theorem stateOf_taskCancelled_other {m : TaskManager} {id id2 : TaskId} (h : id ≠ id2)
    (now : Nat) : stateOf (m.taskCancelled now id2) id = stateOf m id := by
  cases hf : findTask m._taskList id2 with
  | none => simp [TaskManager.taskCancelled, hf]
  | some t =>
      by_cases hcond : t.cancelRequested = true ∧ t.state = .running
      · rw [taskCancelled_eq_of_trigger hf hcond.1 hcond.2]
        simp only [TaskManager.updateTask, TaskManager.postNotification, stateOf]
        rw [findTask_updateTaskL_other setCancelling (fun _ => rfl) _ h]
      · rw [taskCancelled_eq_self now (fun u hu => by rw [hf] at hu; cases hu; exact hcond)]

theorem stateOf_taskFinished_same {m : TaskManager} {id : TaskId} {t : Task}
    (hf : findTask m._taskList id = some t) (hrel : id ∉ idsOf m.released) (now : Nat) :
    stateOf (m.taskFinished now id) id = some .finished := by
  simp only [TaskManager.taskFinished, TaskManager.updateTask, TaskManager.postNotification,
    TaskManager.releaseTask, stateOf]
  rw [findTask_filter_out_same]
  rw [findTask_append_none _ (findTask_eq_none_of_not_mem hrel)]
  rw [findTask_filter_keep_same, findTask_updateTaskL_same setFinished (fun _ => rfl), hf]
  rfl

theorem stateOf_taskFinished_other {m : TaskManager} {id id2 : TaskId} (h : id ≠ id2)
    (now : Nat) : stateOf (m.taskFinished now id2) id = stateOf m id := by
  simp only [TaskManager.taskFinished, TaskManager.updateTask, TaskManager.postNotification,
    TaskManager.releaseTask, stateOf]
  rw [findTask_filter_out_other _ h, findTask_updateTaskL_other setFinished (fun _ => rfl) _ h]
  cases hr : findTask m._taskList id with
  | some u => rfl
  | none =>
      cases hrel : findTask m.released id with
      | some u => rw [findTask_append_some _ hrel]
      | none =>
          rw [findTask_append_none _ hrel, findTask_filter_keep_other _ h]

theorem stateOf_taskFailed_same {m : TaskManager} {id : TaskId} {t : Task} {e : Err}
    (hf : findTask m._taskList id = some t) (hrel : id ∉ idsOf m.released) (now : Nat) :
    stateOf (m.taskFailed now id e) id = some .failed := by
  simp only [TaskManager.taskFailed, TaskManager.updateTask, TaskManager.postNotification,
    TaskManager.releaseTask, stateOf]
  rw [findTask_filter_out_same]
  rw [findTask_append_none _ (findTask_eq_none_of_not_mem hrel)]
  rw [findTask_filter_keep_same, findTask_updateTaskL_same setFailed (fun _ => rfl), hf]
  rfl

theorem stateOf_taskFailed_other {m : TaskManager} {id id2 : TaskId} {e : Err}
    (h : id ≠ id2) (now : Nat) :
    stateOf (m.taskFailed now id2 e) id = stateOf m id := by
  simp only [TaskManager.taskFailed, TaskManager.updateTask, TaskManager.postNotification,
    TaskManager.releaseTask, stateOf]
  rw [findTask_filter_out_other _ h, findTask_updateTaskL_other setFailed (fun _ => rfl) _ h]
  cases hr : findTask m._taskList id with
  | some u => rfl
  | none =>
      cases hrel : findTask m.released id with
      | some u => rw [findTask_append_some _ hrel]
      | none =>
          rw [findTask_append_none _ hrel, findTask_filter_keep_other _ h]

/-! ## The reachable-state invariant -/

theorem mem_updateTaskL {u : Task} {id : TaskId} {g : Task → Task} {l : List Task}
    (h : u ∈ updateTaskL id g l) :
    ∃ w ∈ l, (w.id = id ∧ u = g w) ∨ (w.id ≠ id ∧ u = w) := by
  rcases List.mem_map.mp h with ⟨w, hw, he⟩
  by_cases hid : w.id = id
  · exact ⟨w, hw, Or.inl ⟨hid, by rw [← he, if_pos hid]⟩⟩
  · exact ⟨w, hw, Or.inr ⟨hid, by rw [← he, if_neg hid]⟩⟩

theorem mem_idsOf_of_findTask {l : List Task} {id : TaskId} {t : Task}
    (h : findTask l id = some t) : id ∈ idsOf l := by
  rcases findTask_some_facts h with ⟨h1, h2⟩
  exact h1 ▸ List.mem_map_of_mem Task.id h2

theorem stateOf_eq_some_state {m : TaskManager} {id : TaskId} {t : Task}
    (h : findTask m._taskList id = some t) : stateOf m id = some t.state := by
  simp [stateOf, h]

theorem countEv_singleton (p : Event → Bool) (q : Nat × Event) :
    countEv p [q] = if p q.2 then 1 else 0 := by
  by_cases h : p q.2 = true
  · simp [countEv, h]
  · simp [countEv, h]

theorem countEv_snoc (p : Event → Bool) (evts : List (Nat × Event)) (q : Nat × Event) :
    countEv p (evts ++ [q]) = countEv p evts + (if p q.2 then 1 else 0) := by
  rw [countEv_append, countEv_singleton]

theorem countEv_snoc_false {p : Event → Bool} {q : Nat × Event}
    (evts : List (Nat × Event)) (h : p q.2 = false) :
    countEv p (evts ++ [q]) = countEv p evts := by
  rw [countEv_snoc, h]
  simp

theorem countEv_snoc_true {p : Event → Bool} {q : Nat × Event}
    (evts : List (Nat × Event)) (h : p q.2 = true) :
    countEv p (evts ++ [q]) = countEv p evts + 1 := by
  rw [countEv_snoc, h]
  simp

theorem regStateIs_iff {m : TaskManager} {id : TaskId} {s : TaskState} :
    regStateIs m id s = true ↔
      ∃ t, findTask m._taskList id = some t ∧ t.state = s := by
  unfold regStateIs
  cases h : findTask m._taskList id with
  | none => simp
  | some t => simp [decide_eq_true_eq]

theorem runnable_iff {m : TaskManager} {id : TaskId} :
    runnable m id = true ↔
      ∃ t, findTask m._taskList id = some t ∧
        (t.state = .running ∨ t.state = .cancelling) := by
  unfold runnable
  rw [Bool.or_eq_true, regStateIs_iff, regStateIs_iff]
  constructor
  · rintro (⟨t, h1, h2⟩ | ⟨t, h1, h2⟩)
    · exact ⟨t, h1, Or.inl h2⟩
    · exact ⟨t, h1, Or.inr h2⟩
  · rintro ⟨t, h1, h2 | h2⟩
    · exact Or.inl ⟨t, h1, h2⟩
    · exact Or.inr ⟨t, h1, h2⟩

theorem freshId_iff {m : TaskManager} {id : TaskId} :
    freshId m id = true ↔ id ∉ idsOf m._taskList ∧ id ∉ idsOf m.released := by
  simp [freshId]

/-- The number of started events expected for a task observed in a given state. -/
def startedExpected : Option TaskState → Nat
  | none => 0
  | some .idle => 0
  | some .starting => 0
  | some _ => 1

/-- The invariant holding in every reachable state of the manager
(spec sections 3 and 4.2). -/
structure Inv (m : TaskManager) : Prop where
  regNodup : (idsOf m._taskList).Nodup
  relNodup : (idsOf m.released).Nodup
  disj : ∀ id, id ∈ idsOf m._taskList → id ∉ idsOf m.released
  relTerm : ∀ t ∈ m.released, t.state.isTerminal = true
  regNonTerm : ∀ t ∈ m._taskList, t.state.isTerminal = false
  jobsEq : m.jobs = idsOf m._taskList
  relEv : ∀ t ∈ m.released, ∃ p ∈ m.events, isTerminalEvFor t.id p.2 = true
  termCount : ∀ id, countEv (isTerminalEvFor id) m.events
      = (if id ∈ idsOf m.released then 1 else 0)
  startedCount : ∀ id, countEv (isStartedFor id) m.events = startedExpected (stateOf m id)
  cancelledBound : ∀ id, countEv (isCancelledFor id) m.events ≤ 1
  cancelledZero : ∀ id, (stateOf m id = none ∨ stateOf m id = some .starting ∨
      stateOf m id = some .running) → countEv (isCancelledFor id) m.events = 0

theorem Inv_new : Inv TaskManager.new := by
  refine ⟨?_, ?_, ?_, ?_, ?_, ?_, ?_, ?_, ?_, ?_, ?_⟩ <;>
    simp [TaskManager.new, idsOf, countEv, stateOf, findTask, startedExpected]

theorem inv_registerTask {m : TaskManager} {t : Task} (hInv : Inv m)
    (hfresh : freshId m t.id = true) : Inv (m.registerTask t) := by
  rcases freshId_iff.mp hfresh with ⟨hreg, hrel⟩
  have hids : idsOf (m.registerTask t)._taskList = idsOf m._taskList ++ [t.id] := by
    simp [TaskManager.registerTask, idsOf, setStarting]
  refine ⟨?_, ?_, ?_, ?_, ?_, ?_, ?_, ?_, ?_, ?_, ?_⟩
  · rw [hids, List.nodup_append]
    refine ⟨hInv.regNodup, List.nodup_singleton _, ?_⟩
    intro a ha hb
    simp only [List.mem_singleton] at hb
    subst hb
    exact hreg ha
  · exact hInv.relNodup
  · intro id hid
    rw [hids] at hid
    rcases List.mem_append.mp hid with h | h
    · exact hInv.disj id h
    · simp only [List.mem_singleton] at h
      subst h
      exact hrel
  · exact hInv.relTerm
  · intro u hu
    rcases List.mem_append.mp hu with h | h
    · exact hInv.regNonTerm u h
    · simp only [List.mem_singleton] at h
      subst h
      rfl
  · show m.jobs ++ [t.id] = idsOf (m.registerTask t)._taskList
    rw [hids, hInv.jobsEq]
  · exact hInv.relEv
  · exact hInv.termCount
  · intro id
    by_cases hid : t.id = id
    · subst hid
      have h0 : stateOf m t.id = none := by
        simp [stateOf, findTask_eq_none_of_not_mem hreg, findTask_eq_none_of_not_mem hrel]
      have h1 : stateOf (m.registerTask t) t.id = some .starting :=
        stateOf_registerTask_same (findTask_eq_none_of_not_mem hreg)
      show countEv (isStartedFor t.id) m.events = _
      rw [h1]
      have h2 := hInv.startedCount t.id
      rw [h0] at h2
      exact h2
    · show countEv (isStartedFor id) m.events = _
      rw [stateOf_registerTask_other hid]
      exact hInv.startedCount id
  · exact hInv.cancelledBound
  · intro id hs
    by_cases hid : t.id = id
    · subst hid
      apply hInv.cancelledZero
      left
      simp [stateOf, findTask_eq_none_of_not_mem hreg, findTask_eq_none_of_not_mem hrel]
    · apply hInv.cancelledZero
      rw [← stateOf_registerTask_other hid]
      exact hs

theorem inv_taskStarted {m : TaskManager} {id : TaskId} {now : Nat}
    (hInv : Inv m) (hv : regStateIs m id .starting = true) :
    Inv (m.taskStarted now id) := by
  rcases regStateIs_iff.mp hv with ⟨t, hf, hs⟩
  have hids : idsOf (m.taskStarted now id)._taskList = idsOf m._taskList :=
    idsOf_updateTaskL setRunning (fun _ => rfl) _ _
  have hev : (m.taskStarted now id).events = m.events ++ [(now, Event.started id)] := rfl
  refine ⟨?_, ?_, ?_, ?_, ?_, ?_, ?_, ?_, ?_, ?_, ?_⟩
  · rw [hids]
    exact hInv.regNodup
  · exact hInv.relNodup
  · intro id2 hid2
    rw [hids] at hid2
    exact hInv.disj id2 hid2
  · exact hInv.relTerm
  · intro u hu
    rcases mem_updateTaskL hu with ⟨w, hw, ⟨_, he⟩ | ⟨_, he⟩⟩
    · subst he
      rfl
    · subst he
      exact hInv.regNonTerm _ hw
  · show m.jobs = _
    rw [hids]
    exact hInv.jobsEq
  · intro u hu
    rcases hInv.relEv u hu with ⟨p, hp, hterm⟩
    exact ⟨p, by rw [hev]; exact List.mem_append_left _ hp, hterm⟩
  · intro id2
    rw [hev, countEv_snoc_false _ rfl]
    exact hInv.termCount id2
  · intro id2
    by_cases hid : id2 = id
    · subst hid
      rw [hev, countEv_snoc_true _ (by simp [isStartedFor]), stateOf_taskStarted_same hf]
      have h2 := hInv.startedCount id2
      rw [stateOf_eq_some_state hf, hs] at h2
      rw [h2]
      rfl
    · have hne : isStartedFor id2 (now, Event.started id).2 = false := by
        simp only [isStartedFor, beq_eq_false_iff_ne]
        exact fun he => hid he.symm
      rw [hev, countEv_snoc_false _ hne, stateOf_taskStarted_other hid]
      exact hInv.startedCount id2
  · intro id2
    rw [hev, countEv_snoc_false _ rfl]
    exact hInv.cancelledBound id2
  · intro id2 hs2
    rw [hev, countEv_snoc_false _ rfl]
    by_cases hid : id2 = id
    · subst hid
      apply hInv.cancelledZero
      right
      left
      rw [stateOf_eq_some_state hf, hs]
    · apply hInv.cancelledZero
      rw [← stateOf_taskStarted_other hid now]
      exact hs2

theorem taskProgress_events (m : TaskManager) (now : Nat) (id : TaskId) (v : Rat) :
    (m.taskProgress now id v).events = m.events ∨
      (m.taskProgress now id v).events = m.events ++ [(now, Event.progress id v)] := by
  by_cases hopen : throttleOpen now m._lastProgressNotification = true
  · right
    simp [TaskManager.taskProgress, TaskManager.updateTask, TaskManager.postNotification, hopen]
  · left
    simp [TaskManager.taskProgress, TaskManager.updateTask, TaskManager.postNotification, hopen]

theorem inv_taskProgress {m : TaskManager} {now : Nat} {id : TaskId} {v : Rat}
    (hInv : Inv m) : Inv (m.taskProgress now id v) := by
  have hids : idsOf (m.taskProgress now id v)._taskList = idsOf m._taskList := by
    rw [taskProgress_taskList]
    exact idsOf_updateTaskL (setProgress v) (fun _ => rfl) _ _
  have hrel := taskProgress_released m now id v
  have hjobs := taskProgress_jobs m now id v
  have hevOr := taskProgress_events m now id v
  have hcount : ∀ p : Event → Bool, p (Event.progress id v) = false →
      countEv p (m.taskProgress now id v).events = countEv p m.events := by
    intro p hp
    rcases hevOr with h | h
    · rw [h]
    · rw [h, countEv_snoc_false _ hp]
  refine ⟨?_, ?_, ?_, ?_, ?_, ?_, ?_, ?_, ?_, ?_, ?_⟩
  · rw [hids]
    exact hInv.regNodup
  · rw [hrel]
    exact hInv.relNodup
  · intro id2 h2
    rw [hids] at h2
    rw [hrel]
    exact hInv.disj id2 h2
  · intro u hu
    rw [hrel] at hu
    exact hInv.relTerm u hu
  · intro u hu
    rw [taskProgress_taskList] at hu
    rcases mem_updateTaskL hu with ⟨w, hw, ⟨_, he⟩ | ⟨_, he⟩⟩
    · subst he
      have hnt := hInv.regNonTerm _ hw
      exact hnt
    · subst he
      exact hInv.regNonTerm _ hw
  · rw [hjobs, hids]
    exact hInv.jobsEq
  · intro u hu
    rw [hrel] at hu
    rcases hInv.relEv u hu with ⟨p, hp, ht⟩
    refine ⟨p, ?_, ht⟩
    rcases hevOr with h | h
    · rw [h]
      exact hp
    · rw [h]
      exact List.mem_append_left _ hp
  · intro id2
    rw [hcount _ rfl, hrel]
    exact hInv.termCount id2
  · intro id2
    rw [hcount _ rfl, stateOf_taskProgress]
    exact hInv.startedCount id2
  · intro id2
    rw [hcount _ rfl]
    exact hInv.cancelledBound id2
  · intro id2 hs2
    rw [hcount _ rfl]
    apply hInv.cancelledZero
    rw [← stateOf_taskProgress m now id id2 v]
    exact hs2

theorem inv_requestCancel {m : TaskManager} {id : TaskId} (hInv : Inv m) :
    Inv (m.requestCancel id) := by
  have hids : idsOf (m.requestCancel id)._taskList = idsOf m._taskList :=
    idsOf_updateTaskL setCancelRequested (fun _ => rfl) _ _
  refine ⟨?_, ?_, ?_, ?_, ?_, ?_, ?_, ?_, ?_, ?_, ?_⟩
  · rw [hids]
    exact hInv.regNodup
  · exact hInv.relNodup
  · intro id2 h2
    rw [hids] at h2
    exact hInv.disj id2 h2
  · exact hInv.relTerm
  · intro u hu
    rcases mem_updateTaskL hu with ⟨w, hw, ⟨_, he⟩ | ⟨_, he⟩⟩
    · subst he
      have hnt := hInv.regNonTerm _ hw
      exact hnt
    · subst he
      exact hInv.regNonTerm _ hw
  · show m.jobs = _
    rw [hids]
    exact hInv.jobsEq
  · exact hInv.relEv
  · exact hInv.termCount
  · intro id2
    show countEv (isStartedFor id2) m.events = _
    rw [stateOf_requestCancel]
    exact hInv.startedCount id2
  · exact hInv.cancelledBound
  · intro id2 hs2
    apply hInv.cancelledZero
    rw [← stateOf_requestCancel m id id2]
    exact hs2

theorem inv_taskCancelled {m : TaskManager} {now : Nat} {id : TaskId} (hInv : Inv m) :
    Inv (m.taskCancelled now id) := by
  cases hf : findTask m._taskList id with
  | none =>
      rw [taskCancelled_eq_self now (fun u hu => by rw [hf] at hu; cases hu)]
      exact hInv
  | some t =>
      by_cases hcond : t.cancelRequested = true ∧ t.state = .running
      · have heq := taskCancelled_eq_of_trigger hf hcond.1 hcond.2 now
        have hnew : stateOf (m.taskCancelled now id) id = some .cancelling :=
          stateOf_taskCancelled_same_trigger hf hcond.1 hcond.2 now
        have hold : stateOf m id = some .running := by
          rw [stateOf_eq_some_state hf, hcond.2]
        have hz : countEv (isCancelledFor id) m.events = 0 :=
          hInv.cancelledZero id (Or.inr (Or.inr hold))
        have hids : idsOf (m.taskCancelled now id)._taskList = idsOf m._taskList := by
          rw [heq]
          exact idsOf_updateTaskL setCancelling (fun _ => rfl) _ _
        have hev : (m.taskCancelled now id).events =
            m.events ++ [(now, Event.cancelled id)] := by
          rw [heq]
          rfl
        have hrel : (m.taskCancelled now id).released = m.released := by
          rw [heq]
          rfl
        have hjobs : (m.taskCancelled now id).jobs = m.jobs := by
          rw [heq]
          rfl
        refine ⟨?_, ?_, ?_, ?_, ?_, ?_, ?_, ?_, ?_, ?_, ?_⟩
        · rw [hids]
          exact hInv.regNodup
        · rw [hrel]
          exact hInv.relNodup
        · intro id2 h2
          rw [hids] at h2
          rw [hrel]
          exact hInv.disj id2 h2
        · intro u hu
          rw [hrel] at hu
          exact hInv.relTerm u hu
        · intro u hu
          rw [heq] at hu
          rcases mem_updateTaskL hu with ⟨w, hw, ⟨_, he⟩ | ⟨_, he⟩⟩
          · subst he
            rfl
          · subst he
            exact hInv.regNonTerm _ hw
        · rw [hjobs, hids]
          exact hInv.jobsEq
        · intro u hu
          rw [hrel] at hu
          rcases hInv.relEv u hu with ⟨p, hp, ht⟩
          exact ⟨p, by rw [hev]; exact List.mem_append_left _ hp, ht⟩
        · intro id2
          rw [hev, countEv_snoc_false _ rfl, hrel]
          exact hInv.termCount id2
        · intro id2
          by_cases hid : id2 = id
          · subst hid
            rw [hev, countEv_snoc_false _ rfl, hnew]
            have h2 := hInv.startedCount id2
            rw [hold] at h2
            exact h2
          · rw [hev, countEv_snoc_false _ rfl, stateOf_taskCancelled_other hid now]
            exact hInv.startedCount id2
        · intro id2
          by_cases hid : id2 = id
          · subst hid
            rw [hev, countEv_snoc_true _ (by simp [isCancelledFor]), hz]
          · have hne : isCancelledFor id2 (now, Event.cancelled id).2 = false := by
              simp only [isCancelledFor, beq_eq_false_iff_ne]
              exact fun he => hid he.symm
            rw [hev, countEv_snoc_false _ hne]
            exact hInv.cancelledBound id2
        · intro id2 hs2
          by_cases hid : id2 = id
          · subst hid
            rw [hnew] at hs2
            rcases hs2 with h | h | h <;> cases h
          · have hne : isCancelledFor id2 (now, Event.cancelled id).2 = false := by
              simp only [isCancelledFor, beq_eq_false_iff_ne]
              exact fun he => hid he.symm
            rw [hev, countEv_snoc_false _ hne]
            apply hInv.cancelledZero
            rw [← stateOf_taskCancelled_other hid now]
            exact hs2
      · rw [taskCancelled_eq_self now (fun u hu => by rw [hf] at hu; cases hu; exact hcond)]
        exact hInv

theorem stateOf_releaseStep_same {m : TaskManager} {id : TaskId} {t : Task}
    (g : Task → Task) (ev : Event) (s : TaskState)
    (hg_id : ∀ u, (g u).id = u.id) (hg_st : ∀ u, (g u).state = s)
    (hf : findTask m._taskList id = some t) (hrel : id ∉ idsOf m.released) (now : Nat) :
    stateOf (((m.updateTask id g).postNotification now ev).releaseTask id) id = some s := by
  simp only [TaskManager.updateTask, TaskManager.postNotification, TaskManager.releaseTask,
    stateOf]
  rw [findTask_filter_out_same]
  rw [findTask_append_none _ (findTask_eq_none_of_not_mem hrel)]
  rw [findTask_filter_keep_same, findTask_updateTaskL_same g hg_id, hf]
  simp [hg_st]

theorem stateOf_releaseStep_other {m : TaskManager} {id id2 : TaskId}
    (g : Task → Task) (ev : Event) (hg_id : ∀ u, (g u).id = u.id)
    (h : id2 ≠ id) (now : Nat) :
    stateOf (((m.updateTask id g).postNotification now ev).releaseTask id) id2 =
      stateOf m id2 := by
  simp only [TaskManager.updateTask, TaskManager.postNotification, TaskManager.releaseTask,
    stateOf]
  rw [findTask_filter_out_other _ h, findTask_updateTaskL_other g hg_id _ h]
  cases hr : findTask m._taskList id2 with
  | some u => rfl
  | none =>
      cases hrel : findTask m.released id2 with
      | some u => rw [findTask_append_some _ hrel]
      | none =>
          rw [findTask_append_none _ hrel, findTask_filter_keep_other _ h]

theorem inv_releaseStep {m : TaskManager} {id : TaskId} {now : Nat} (hInv : Inv m)
    (g : Task → Task) (ev : Event) (s : TaskState)
    (hg_id : ∀ u, (g u).id = u.id) (hg_st : ∀ u, (g u).state = s)
    (hterm : s.isTerminal = true)
    (hmatch : ∀ id2, isTerminalEvFor id2 ev = (id == id2))
    (hnostart : ∀ id2, isStartedFor id2 ev = false)
    (hnocancel : ∀ id2, isCancelledFor id2 ev = false)
    {t : Task} (hf : findTask m._taskList id = some t)
    (hts : t.state = .running ∨ t.state = .cancelling) :
    Inv (((m.updateTask id g).postNotification now ev).releaseTask id) := by
  have hmem : id ∈ idsOf m._taskList := mem_idsOf_of_findTask hf
  have hrelnot : id ∉ idsOf m.released := hInv.disj id hmem
  have hu_ids : idsOf (updateTaskL id g m._taskList) = idsOf m._taskList :=
    idsOf_updateTaskL g hg_id _ _
  have hreg2 : (((m.updateTask id g).postNotification now ev).releaseTask id)._taskList =
      (updateTaskL id g m._taskList).filter (fun u => !(u.id == id)) := rfl
  have hrel2 : (((m.updateTask id g).postNotification now ev).releaseTask id).released =
      m.released ++ (updateTaskL id g m._taskList).filter (fun u => u.id == id) := rfl
  have hjobs2 : (((m.updateTask id g).postNotification now ev).releaseTask id).jobs =
      m.jobs.filter (fun j => !(j == id)) := rfl
  have hev : (((m.updateTask id g).postNotification now ev).releaseTask id).events =
      m.events ++ [(now, ev)] := rfl
  have hreg_ids : idsOf (((m.updateTask id g).postNotification now ev).releaseTask id)._taskList
      = (idsOf m._taskList).filter (fun j => !(j == id)) := by
    rw [hreg2, idsOf_filter_out, hu_ids]
  have hkeep_ids : idsOf ((updateTaskL id g m._taskList).filter (fun u => u.id == id)) = [id] :=
    idsOf_filter_keep_nodup (hu_ids ▸ hInv.regNodup) (hu_ids ▸ hmem)
  have hrel_ids : idsOf (((m.updateTask id g).postNotification now ev).releaseTask id).released
      = idsOf m.released ++ [id] := by
    rw [hrel2, idsOf_append, hkeep_ids]
  have hkeepMem : ∀ u ∈ (updateTaskL id g m._taskList).filter (fun u => u.id == id),
      u.state = s := by
    intro u hu
    rw [List.mem_filter] at hu
    have huid : u.id = id := by
      have := hu.2
      simpa using this
    rcases mem_updateTaskL hu.1 with ⟨w, hw, ⟨_, he⟩ | ⟨hwne, he⟩⟩
    · rw [he, hg_st]
    · rw [he] at huid
      exact absurd huid hwne
  refine ⟨?_, ?_, ?_, ?_, ?_, ?_, ?_, ?_, ?_, ?_, ?_⟩
  · rw [hreg_ids]
    exact hInv.regNodup.filter _
  · rw [hrel_ids, List.nodup_append]
    refine ⟨hInv.relNodup, List.nodup_singleton _, ?_⟩
    intro a ha hb
    simp only [List.mem_singleton] at hb
    subst hb
    exact hrelnot ha
  · intro id2 h2
    rw [hreg_ids] at h2
    rw [List.mem_filter] at h2
    have hne : id2 ≠ id := by
      have := h2.2
      simpa using this
    rw [hrel_ids]
    intro hc
    rcases List.mem_append.mp hc with hc | hc
    · exact hInv.disj id2 h2.1 hc
    · simp only [List.mem_singleton] at hc
      exact hne hc
  · intro u hu
    rw [hrel2] at hu
    rcases List.mem_append.mp hu with hu | hu
    · exact hInv.relTerm u hu
    · rw [hkeepMem u hu]
      exact hterm
  · intro u hu
    rw [hreg2] at hu
    rw [List.mem_filter] at hu
    have hne : u.id ≠ id := by
      have := hu.2
      simpa using this
    rcases mem_updateTaskL hu.1 with ⟨w, hw, ⟨hwid, he⟩ | ⟨_, he⟩⟩
    · rw [he, hg_id] at hne
      exact absurd hwid hne
    · rw [he]
      exact hInv.regNonTerm _ hw
  · rw [hjobs2, hInv.jobsEq, hreg_ids]
  · intro u hu
    rw [hrel2] at hu
    rcases List.mem_append.mp hu with hu | hu
    · rcases hInv.relEv u hu with ⟨p, hp, ht⟩
      exact ⟨p, by rw [hev]; exact List.mem_append_left _ hp, ht⟩
    · refine ⟨(now, ev), by rw [hev]; exact List.mem_append_right _ (List.mem_singleton.mpr rfl), ?_⟩
      rw [List.mem_filter] at hu
      have huid : u.id = id := by
        have := hu.2
        simpa using this
      rw [hmatch, huid]
      exact beq_self_eq_true id
  · intro id2
    by_cases hid : id2 = id
    · subst hid
      have htrue : isTerminalEvFor id2 (now, ev).2 = true := by
        rw [hmatch]
        exact beq_self_eq_true id2
      rw [hev, countEv_snoc_true _ htrue]
      have h0 := hInv.termCount id2
      rw [if_neg hrelnot] at h0
      rw [h0]
      rw [if_pos (by rw [hrel_ids]; exact List.mem_append_right _ (List.mem_singleton.mpr rfl))]
    · have hfalse : isTerminalEvFor id2 (now, ev).2 = false := by
        rw [hmatch]
        simp only [beq_eq_false_iff_ne]
        exact fun he => hid he.symm
      rw [hev, countEv_snoc_false _ hfalse]
      have h0 := hInv.termCount id2
      rw [h0]
      by_cases hm2 : id2 ∈ idsOf m.released
      · rw [if_pos hm2, if_pos (by rw [hrel_ids]; exact List.mem_append_left _ hm2)]
      · rw [if_neg hm2, if_neg ?_]
        rw [hrel_ids]
        intro hc
        rcases List.mem_append.mp hc with hc | hc
        · exact hm2 hc
        · simp only [List.mem_singleton] at hc
          exact hid hc
  · intro id2
    rw [hev, countEv_snoc_false _ (hnostart id2)]
    by_cases hid : id2 = id
    · subst hid
      rw [stateOf_releaseStep_same g ev s hg_id hg_st hf hrelnot now]
      have h2 := hInv.startedCount id2
      rw [stateOf_eq_some_state hf] at h2
      rcases hts with h | h <;> rw [h] at h2
      · rw [h2]
        cases s <;> simp [startedExpected, TaskState.isTerminal] at hterm ⊢
      · rw [h2]
        cases s <;> simp [startedExpected, TaskState.isTerminal] at hterm ⊢
    · rw [stateOf_releaseStep_other g ev hg_id hid now]
      exact hInv.startedCount id2
  · intro id2
    rw [hev, countEv_snoc_false _ (hnocancel id2)]
    exact hInv.cancelledBound id2
  · intro id2 hs2
    rw [hev, countEv_snoc_false _ (hnocancel id2)]
    by_cases hid : id2 = id
    · subst hid
      rw [stateOf_releaseStep_same g ev s hg_id hg_st hf hrelnot now] at hs2
      rcases hs2 with h | h | h
      · cases h
      · have := Option.some.inj h
        rw [this] at hterm
        cases hterm
      · have := Option.some.inj h
        rw [this] at hterm
        cases hterm
    · rw [stateOf_releaseStep_other g ev hg_id hid now] at hs2
      apply hInv.cancelledZero
      exact hs2

theorem inv_taskFinished {m : TaskManager} {now : Nat} {id : TaskId} (hInv : Inv m)
    (hv : runnable m id = true) : Inv (m.taskFinished now id) := by
  rcases runnable_iff.mp hv with ⟨t, hf, hts⟩
  exact inv_releaseStep hInv setFinished (Event.finished id) .finished
    (fun _ => rfl) (fun _ => rfl) rfl (fun _ => rfl) (fun _ => rfl) (fun _ => rfl) hf hts

theorem inv_taskFailed {m : TaskManager} {now : Nat} {id : TaskId} {e : Err} (hInv : Inv m)
    (hv : runnable m id = true) : Inv (m.taskFailed now id e) := by
  rcases runnable_iff.mp hv with ⟨t, hf, hts⟩
  exact inv_releaseStep hInv setFailed (Event.failed id e) .failed
    (fun _ => rfl) (fun _ => rfl) rfl (fun _ => rfl) (fun _ => rfl) (fun _ => rfl) hf hts

theorem inv_step {m : TaskManager} (now : Nat) (c : Cmd) (hv : validCmd m c = true)
    (hInv : Inv m) : Inv (step now c m) := by
  cases c with
  | cstart t =>
      have h2 : freshId m t.id = true := by
        have := hv
        simp only [validCmd, Bool.and_eq_true] at this
        exact this.2
      exact inv_registerTask hInv h2
  | cstarted id => exact inv_taskStarted hInv hv
  | cprogress id v => exact inv_taskProgress hInv
  | creqCancel id => exact inv_requestCancel hInv
  | cpoll id => exact inv_taskCancelled hInv
  | cfinished id => exact inv_taskFinished hInv hv
  | cfailed id e => exact inv_taskFailed hInv hv
  | cforeignStart =>
      exact ⟨hInv.regNodup, hInv.relNodup, hInv.disj, hInv.relTerm, hInv.regNonTerm,
        hInv.jobsEq, hInv.relEv, hInv.termCount, hInv.startedCount, hInv.cancelledBound,
        hInv.cancelledZero⟩
  | cforeignDone =>
      exact ⟨hInv.regNodup, hInv.relNodup, hInv.disj, hInv.relTerm, hInv.regNonTerm,
        hInv.jobsEq, hInv.relEv, hInv.termCount, hInv.startedCount, hInv.cancelledBound,
        hInv.cancelledZero⟩

theorem validTrace_cons {m : TaskManager} {c : Nat × Cmd} {cs : List (Nat × Cmd)} :
    validTrace m (c :: cs) = true ↔
      validCmd m c.2 = true ∧ validTrace (run1 m c) cs = true := by
  simp [validTrace, Bool.and_eq_true]

theorem inv_runTrace {m : TaskManager} {cs : List (Nat × Cmd)}
    (hvt : validTrace m cs = true) (hInv : Inv m) : Inv (runTrace m cs) := by
  induction cs generalizing m with
  | nil => exact hInv
  | cons c cs ih =>
      rcases validTrace_cons.mp hvt with ⟨h1, h2⟩
      exact ih h2 (inv_step c.1 c.2 h1 hInv)

/-! ## Every valid step moves a task along the transition graph -/

theorem stateOf_congr {a b : TaskManager} (id : TaskId)
    (h1 : findTask a._taskList id = findTask b._taskList id)
    (h2 : findTask a.released id = findTask b.released id) :
    stateOf a id = stateOf b id := by
  simp only [stateOf, h1, h2]

theorem stateOf_step {m : TaskManager} (now : Nat) {c : Cmd} (hv : validCmd m c = true)
    (hInv : Inv m) (id : TaskId) :
    stateOf (step now c m) id = stateOf m id
    ∨ (∃ s s2, stateOf m id = some s ∧ stateOf (step now c m) id = some s2 ∧
        canTransition s s2 = true)
    ∨ (stateOf m id = none ∧ stateOf (step now c m) id = some .starting) := by
  cases c with
  | cstart t =>
      have hvv : t.state = .idle ∧ freshId m t.id = true := by
        simpa [validCmd, Bool.and_eq_true, decide_eq_true_eq] using hv
      rcases freshId_iff.mp hvv.2 with ⟨hreg, hrel⟩
      by_cases hid : t.id = id
      · subst hid
        refine Or.inr (Or.inr ⟨?_, ?_⟩)
        · simp [stateOf, findTask_eq_none_of_not_mem hreg, findTask_eq_none_of_not_mem hrel]
        · exact stateOf_registerTask_same (findTask_eq_none_of_not_mem hreg)
      · exact Or.inl (stateOf_registerTask_other hid)
  | cstarted id2 =>
      rcases regStateIs_iff.mp hv with ⟨t, hf, hs⟩
      by_cases hid : id = id2
      · subst hid
        refine Or.inr (Or.inl ⟨.starting, .running, ?_, ?_, rfl⟩)
        · rw [stateOf_eq_some_state hf, hs]
        · exact stateOf_taskStarted_same hf now
      · exact Or.inl (stateOf_taskStarted_other hid now)
  | cprogress id2 v => exact Or.inl (stateOf_taskProgress m now id2 id v)
  | creqCancel id2 => exact Or.inl (stateOf_requestCancel m id2 id)
  | cpoll id2 =>
      cases hf : findTask m._taskList id2 with
      | none =>
          left
          rw [show step now (Cmd.cpoll id2) m = m.taskCancelled now id2 from rfl]
          rw [taskCancelled_eq_self now (fun u hu => by rw [hf] at hu; cases hu)]
      | some t =>
          by_cases hcond : t.cancelRequested = true ∧ t.state = .running
          · by_cases hid : id = id2
            · subst hid
              refine Or.inr (Or.inl ⟨.running, .cancelling, ?_, ?_, rfl⟩)
              · rw [stateOf_eq_some_state hf, hcond.2]
              · exact stateOf_taskCancelled_same_trigger hf hcond.1 hcond.2 now
            · exact Or.inl (stateOf_taskCancelled_other hid now)
          · left
            rw [show step now (Cmd.cpoll id2) m = m.taskCancelled now id2 from rfl]
            rw [taskCancelled_eq_self now
              (fun u hu => by rw [hf] at hu; cases hu; exact hcond)]
  | cfinished id2 =>
      rcases runnable_iff.mp hv with ⟨t, hf, hts⟩
      by_cases hid : id = id2
      · subst hid
        have hrel : id ∉ idsOf m.released := hInv.disj id (mem_idsOf_of_findTask hf)
        refine Or.inr (Or.inl ⟨t.state, .finished, stateOf_eq_some_state hf, ?_, ?_⟩)
        · exact stateOf_taskFinished_same hf hrel now
        · rcases hts with h | h <;> rw [h] <;> rfl
      · exact Or.inl (stateOf_taskFinished_other hid now)
  | cfailed id2 e =>
      rcases runnable_iff.mp hv with ⟨t, hf, hts⟩
      by_cases hid : id = id2
      · subst hid
        have hrel : id ∉ idsOf m.released := hInv.disj id (mem_idsOf_of_findTask hf)
        refine Or.inr (Or.inl ⟨t.state, .failed, stateOf_eq_some_state hf, ?_, ?_⟩)
        · exact stateOf_taskFailed_same hf hrel now
        · rcases hts with h | h <;> rw [h] <;> rfl
      · exact Or.inl (stateOf_taskFailed_other hid now)
  | cforeignStart => exact Or.inl rfl
  | cforeignDone => exact Or.inl rfl

theorem pathOk_cons_cons {a b : TaskState} {r : List TaskState} :
    pathOk (a :: b :: r) = true ↔ stepOk a b = true ∧ pathOk (b :: r) = true := by
  simp [pathOk, Bool.and_eq_true]

theorem pathOk_cons_of_head {a : TaskState} {l : List TaskState}
    (hp : pathOk l = true) (h : ∀ b, l.head? = some b → stepOk a b = true) :
    pathOk (a :: l) = true := by
  cases l with
  | nil => rfl
  | cons b r => exact pathOk_cons_cons.mpr ⟨h b rfl, hp⟩

theorem stepOk_self (a : TaskState) : stepOk a a = true := by
  simp [stepOk]

theorem stepOk_of_canTransition {a b : TaskState} (h : canTransition a b = true) :
    stepOk a b = true := by
  simp [stepOk, h]

theorem observed_chain (cs : List (Nat × Cmd)) :
    ∀ (m : TaskManager) (id : TaskId), validTrace m cs = true → Inv m →
    (stateOf m id = none → pathOk (TaskState.idle :: observed m id cs) = true)
    ∧ (∀ s, stateOf m id = some s →
        pathOk (observed m id cs) = true ∧ (observed m id cs).head? = some s) := by
  induction cs with
  | nil =>
      intro m id _ _
      constructor
      · intro h0
        simp [observed, h0, pathOk]
      · intro s hs
        simp [observed, hs, pathOk]
  | cons c cs ih =>
      intro m id hvt hInv
      rcases validTrace_cons.mp hvt with ⟨h1, h2⟩
      have hInv2 : Inv (run1 m c) := inv_step c.1 c.2 h1 hInv
      have hd := stateOf_step c.1 h1 hInv id
      have hobs : observed m id (c :: cs) =
          (stateOf m id).toList ++ observed (run1 m c) id cs := rfl
      constructor
      · intro h0
        rw [hobs, h0]
        show pathOk (.idle :: observed (run1 m c) id cs) = true
        rcases hd with hd | ⟨s1, s2, hs1, _, _⟩ | ⟨_, hnew⟩
        · rw [h0] at hd
          exact (ih (run1 m c) id h2 hInv2).1 hd
        · rw [h0] at hs1
          cases hs1
        · rcases (ih (run1 m c) id h2 hInv2).2 .starting hnew with ⟨hp, hh⟩
          apply pathOk_cons_of_head hp
          intro b hb
          rw [hh] at hb
          cases hb
          rfl
      · intro s hs
        rw [hobs, hs]
        show pathOk (s :: observed (run1 m c) id cs) = true ∧ _
        refine ⟨?_, rfl⟩
        rcases hd with hd | ⟨s1, s2, hs1, hs2, hcan⟩ | ⟨hnone, _⟩
        · rw [hs] at hd
          rcases (ih (run1 m c) id h2 hInv2).2 s hd with ⟨hp, hh⟩
          apply pathOk_cons_of_head hp
          intro b hb
          rw [hh] at hb
          cases hb
          exact stepOk_self s
        · rw [hs] at hs1
          cases hs1
          rcases (ih (run1 m c) id h2 hInv2).2 s2 hs2 with ⟨hp, hh⟩
          apply pathOk_cons_of_head hp
          intro b hb
          rw [hh] at hb
          cases hb
          exact stepOk_of_canTransition hcan
        · rw [hs] at hnone
          cases hnone

/-! ## The progress throttle publishes at most once per interval -/

theorem add_interval_le {a now : Nat}
    (h : MIN_PROGRESS_NOTIFICATION_INTERVAL ≤ now - a) :
    a + MIN_PROGRESS_NOTIFICATION_INTERVAL ≤ now := by
  rw [MIN_PROGRESS_NOTIFICATION_INTERVAL] at *
  omega

theorem progressTimes_snoc_of_not_progress (evts : List (Nat × Event)) (q : Nat × Event)
    (h : progressTimes [q] = []) : progressTimes (evts ++ [q]) = progressTimes evts := by
  rw [progressTimes_append, h, List.append_nil]

theorem sepOk_snoc {l : List Nat} {b : Nat} (hs : sepOk l = true)
    (h : ∀ a, l.getLast? = some a → a + MIN_PROGRESS_NOTIFICATION_INTERVAL ≤ b) :
    sepOk (l ++ [b]) = true := by
  induction l with
  | nil => rfl
  | cons x l ih =>
      cases l with
      | nil =>
          have hb := h x rfl
          simp [sepOk, hb]
      | cons y r =>
          have h1 : (decide (x + MIN_PROGRESS_NOTIFICATION_INTERVAL ≤ y)) = true ∧
              sepOk (y :: r) = true := by
            simpa [sepOk, Bool.and_eq_true] using hs
          have h2 : sepOk ((y :: r) ++ [b]) = true :=
            ih h1.2 (fun a ha => h a (by rw [List.getLast?_cons_cons]; exact ha))
          show (decide (x + MIN_PROGRESS_NOTIFICATION_INTERVAL ≤ y) &&
              sepOk (y :: (r ++ [b]))) = true
          rw [h1.1, Bool.true_and]
          exact h2

/-- The throttle bookkeeping: the published progress-notification times are at least
the minimum interval apart, and the stored timestamp is the last of them. -/
def ThrottleInv (m : TaskManager) : Prop :=
  sepOk (progressTimes m.events) = true ∧
  m._lastProgressNotification = (progressTimes m.events).getLast?

theorem throttleInv_new : ThrottleInv TaskManager.new := ⟨rfl, rfl⟩

theorem throttleInv_taskProgress {m : TaskManager} (now : Nat) (id : TaskId) (v : Rat)
    (h : ThrottleInv m) : ThrottleInv (m.taskProgress now id v) := by
  rcases h with ⟨hsep, hlast⟩
  by_cases hopen : throttleOpen now m._lastProgressNotification = true
  · have hev : (m.taskProgress now id v).events = m.events ++ [(now, Event.progress id v)] := by
      simp [TaskManager.taskProgress, TaskManager.updateTask, TaskManager.postNotification, hopen]
    have hlp : (m.taskProgress now id v)._lastProgressNotification = some now := by
      simp [TaskManager.taskProgress, TaskManager.updateTask, TaskManager.postNotification, hopen]
    have hpt : progressTimes (m.taskProgress now id v).events =
        progressTimes m.events ++ [now] := by
      rw [hev, progressTimes_append]
      rfl
    constructor
    · rw [hpt]
      apply sepOk_snoc hsep
      intro a ha
      rw [← hlast] at ha
      rw [ha] at hopen
      exact add_interval_le (by simpa [throttleOpen] using hopen)
    · rw [hlp, hpt, List.getLast?_concat]
  · have hev : (m.taskProgress now id v).events = m.events := by
      simp [TaskManager.taskProgress, TaskManager.updateTask, TaskManager.postNotification, hopen]
    have hlp : (m.taskProgress now id v)._lastProgressNotification =
        m._lastProgressNotification := by
      simp [TaskManager.taskProgress, TaskManager.updateTask, TaskManager.postNotification, hopen]
    exact ⟨by rw [hev]; exact hsep, by rw [hlp, hev]; exact hlast⟩

theorem throttleInv_step (now : Nat) (c : Cmd) {m : TaskManager} (h : ThrottleInv m) :
    ThrottleInv (step now c m) := by
  rcases h with ⟨hsep, hlast⟩
  cases c with
  | cstart t => exact ⟨hsep, hlast⟩
  | cstarted id =>
      have hev : (m.taskStarted now id).events = m.events ++ [(now, Event.started id)] := rfl
      have hnp : progressTimes (m.taskStarted now id).events = progressTimes m.events := by
        rw [hev]
        exact progressTimes_snoc_of_not_progress m.events (now, Event.started id) rfl
      constructor
      · show sepOk (progressTimes (m.taskStarted now id).events) = true
        rw [hnp]
        exact hsep
      · show (m.taskStarted now id)._lastProgressNotification =
          (progressTimes (m.taskStarted now id).events).getLast?
        rw [hnp]
        exact hlast
  | cprogress id v => exact throttleInv_taskProgress now id v ⟨hsep, hlast⟩
  | creqCancel id => exact ⟨hsep, hlast⟩
  | cpoll id =>
      show ThrottleInv (m.taskCancelled now id)
      cases hf : findTask m._taskList id with
      | none =>
          rw [taskCancelled_eq_self now (fun u hu => by rw [hf] at hu; cases hu)]
          exact ⟨hsep, hlast⟩
      | some t =>
          by_cases hcond : t.cancelRequested = true ∧ t.state = .running
          · have heq := taskCancelled_eq_of_trigger hf hcond.1 hcond.2 now
            have hev : (m.taskCancelled now id).events =
                m.events ++ [(now, Event.cancelled id)] := by
              rw [heq]
              rfl
            have hlp : (m.taskCancelled now id)._lastProgressNotification =
                m._lastProgressNotification := by
              rw [heq]
              rfl
            have hnp : progressTimes (m.taskCancelled now id).events =
                progressTimes m.events := by
              rw [hev]
              exact progressTimes_snoc_of_not_progress m.events (now, Event.cancelled id) rfl
            constructor
            · rw [hnp]
              exact hsep
            · rw [hlp, hnp]
              exact hlast
          · rw [taskCancelled_eq_self now
              (fun u hu => by rw [hf] at hu; cases hu; exact hcond)]
            exact ⟨hsep, hlast⟩
  | cfinished id =>
      have hev : (m.taskFinished now id).events = m.events ++ [(now, Event.finished id)] := rfl
      have hnp : progressTimes (m.taskFinished now id).events = progressTimes m.events := by
        rw [hev]
        exact progressTimes_snoc_of_not_progress m.events (now, Event.finished id) rfl
      constructor
      · show sepOk (progressTimes (m.taskFinished now id).events) = true
        rw [hnp]
        exact hsep
      · show (m.taskFinished now id)._lastProgressNotification =
          (progressTimes (m.taskFinished now id).events).getLast?
        rw [hnp]
        exact hlast
  | cfailed id e =>
      have hev : (m.taskFailed now id e).events = m.events ++ [(now, Event.failed id e)] := rfl
      have hnp : progressTimes (m.taskFailed now id e).events = progressTimes m.events := by
        rw [hev]
        exact progressTimes_snoc_of_not_progress m.events (now, Event.failed id e) rfl
      constructor
      · show sepOk (progressTimes (m.taskFailed now id e).events) = true
        rw [hnp]
        exact hsep
      · show (m.taskFailed now id e)._lastProgressNotification =
          (progressTimes (m.taskFailed now id e).events).getLast?
        rw [hnp]
        exact hlast
  | cforeignStart => exact ⟨hsep, hlast⟩
  | cforeignDone => exact ⟨hsep, hlast⟩

theorem throttleInv_runTrace {m : TaskManager} (cs : List (Nat × Cmd))
    (h : ThrottleInv m) : ThrottleInv (runTrace m cs) := by
  induction cs generalizing m with
  | nil => exact h
  | cons c cs ih => exact ih (throttleInv_step c.1 c.2 h)

/-! ## Tasks never disappear from observation, and started tasks stay observable -/

theorem stateOf_some_run {cs : List (Nat × Cmd)} :
    ∀ {m : TaskManager} {id : TaskId} {s : TaskState},
    validTrace m cs = true → Inv m → stateOf m id = some s →
    ∃ s2, stateOf (runTrace m cs) id = some s2 := by
  induction cs with
  | nil =>
      intro m id s _ _ h
      exact ⟨s, h⟩
  | cons c cs ih =>
      intro m id s hvt hInv h
      rcases validTrace_cons.mp hvt with ⟨h1, h2⟩
      have hInv2 : Inv (run1 m c) := inv_step c.1 c.2 h1 hInv
      rcases stateOf_step c.1 h1 hInv id with hd | ⟨s1, s2, _, hs2, _⟩ | ⟨hnone, _⟩
      · rw [h] at hd
        exact ih h2 hInv2 hd
      · exact ih h2 hInv2 hs2
      · rw [h] at hnone
        cases hnone

theorem started_state_some (cs : List (Nat × Cmd)) :
    ∀ (m : TaskManager) (id : TaskId), validTrace m cs = true → Inv m →
    id ∈ startedIdsOf cs → ∃ s2, stateOf (runTrace m cs) id = some s2 := by
  induction cs with
  | nil =>
      intro m id _ _ h
      simp [startedIdsOf] at h
  | cons c cs ih =>
      intro m id hvt hInv hmem
      rcases validTrace_cons.mp hvt with ⟨h1, h2⟩
      have hInv2 : Inv (run1 m c) := inv_step c.1 c.2 h1 hInv
      obtain ⟨tc, cc⟩ := c
      cases cc with
      | cstart t =>
          have hsplit : startedIdsOf ((tc, Cmd.cstart t) :: cs) = t.id :: startedIdsOf cs := by
            simp [startedIdsOf]
          rw [hsplit] at hmem
          rcases List.mem_cons.mp hmem with he | hm
          · subst he
            have hval : t.state = .idle ∧ freshId m t.id = true := by
              simpa [validCmd, Bool.and_eq_true, decide_eq_true_eq] using h1
            rcases freshId_iff.mp hval.2 with ⟨hreg, _⟩
            have hst : stateOf (run1 m (tc, Cmd.cstart t)) t.id = some .starting :=
              stateOf_registerTask_same (findTask_eq_none_of_not_mem hreg)
            show ∃ s2, stateOf (runTrace (run1 m (tc, Cmd.cstart t)) cs) t.id = some s2
            exact stateOf_some_run h2 hInv2 hst
          · exact ih _ id h2 hInv2 hm
      | cstarted id2 =>
          exact ih _ id h2 hInv2 (by simpa [startedIdsOf] using hmem)
      | cprogress id2 v =>
          exact ih _ id h2 hInv2 (by simpa [startedIdsOf] using hmem)
      | creqCancel id2 =>
          exact ih _ id h2 hInv2 (by simpa [startedIdsOf] using hmem)
      | cpoll id2 =>
          exact ih _ id h2 hInv2 (by simpa [startedIdsOf] using hmem)
      | cfinished id2 =>
          exact ih _ id h2 hInv2 (by simpa [startedIdsOf] using hmem)
      | cfailed id2 e =>
          exact ih _ id h2 hInv2 (by simpa [startedIdsOf] using hmem)
      | cforeignStart =>
          exact ih _ id h2 hInv2 (by simpa [startedIdsOf] using hmem)
      | cforeignDone =>
          exact ih _ id h2 hInv2 (by simpa [startedIdsOf] using hmem)

theorem registry_empty_of_jobs_nil {m : TaskManager} (hInv : Inv m)
    (h : m.jobs = []) : m._taskList = [] := by
  have h2 := hInv.jobsEq
  rw [h] at h2
  exact List.map_eq_nil_iff.mp h2.symm

/-! ## The execution wrapper: facts about running a body inline -/

theorem runStep_facts (now : Nat) (id : TaskId) (st : RunStep) (m : TaskManager) :
    (∀ id2, id2 ≠ id →
      findTask (m.runStep now id st)._taskList id2 = findTask m._taskList id2)
    ∧ (m.runStep now id st).released = m.released
    ∧ ((findTask m._taskList id).isSome = true →
        (findTask (m.runStep now id st)._taskList id).isSome = true) := by
  cases st with
  | report v =>
      refine ⟨?_, taskProgress_released m now id v, ?_⟩
      · intro id2 hne
        show findTask (m.taskProgress now id v)._taskList id2 = _
        rw [taskProgress_taskList]
        exact findTask_updateTaskL_other (setProgress v) (fun _ => rfl) _ hne
      · intro h
        show (findTask (m.taskProgress now id v)._taskList id).isSome = true
        rw [taskProgress_taskList, findTask_updateTaskL_same (setProgress v) (fun _ => rfl)]
        cases hf : findTask m._taskList id with
        | none =>
            rw [hf] at h
            cases h
        | some u => rfl
  | poll =>
      show (∀ id2, id2 ≠ id →
          findTask (m.taskCancelled now id)._taskList id2 = findTask m._taskList id2) ∧
        (m.taskCancelled now id).released = m.released ∧
        ((findTask m._taskList id).isSome = true →
          (findTask (m.taskCancelled now id)._taskList id).isSome = true)
      cases hf : findTask m._taskList id with
      | none =>
          rw [taskCancelled_eq_self now (fun u hu => by rw [hf] at hu; cases hu)]
          exact ⟨fun _ _ => rfl, rfl, fun h => by cases h⟩
      | some t =>
          by_cases hcond : t.cancelRequested = true ∧ t.state = .running
          · rw [taskCancelled_eq_of_trigger hf hcond.1 hcond.2]
            refine ⟨?_, rfl, ?_⟩
            · intro id2 hne
              exact findTask_updateTaskL_other setCancelling (fun _ => rfl) _ hne
            · intro h
              show (findTask (updateTaskL id setCancelling m._taskList) id).isSome = true
              rw [findTask_updateTaskL_same setCancelling (fun _ => rfl), hf]
              rfl
          · rw [taskCancelled_eq_self now
              (fun u hu => by rw [hf] at hu; cases hu; exact hcond)]
            exact ⟨fun _ _ => rfl, rfl, fun _ => by rw [hf]; rfl⟩

theorem runSteps_facts (now : Nat) (id : TaskId) (steps : List RunStep) :
    ∀ m : TaskManager, (findTask m._taskList id).isSome = true →
    (∀ id2, id2 ≠ id →
      findTask ((steps.foldl (fun acc s => acc.runStep now id s) m))._taskList id2
        = findTask m._taskList id2)
    ∧ (steps.foldl (fun acc s => acc.runStep now id s) m).released = m.released
    ∧ (findTask ((steps.foldl (fun acc s => acc.runStep now id s) m))._taskList id).isSome
        = true := by
  induction steps with
  | nil =>
      intro m h
      exact ⟨fun _ _ => rfl, rfl, h⟩
  | cons st steps ih =>
      intro m h
      have h1 := runStep_facts now id st m
      have h2 := ih (m.runStep now id st) (h1.2.2 h)
      refine ⟨?_, ?_, h2.2.2⟩
      · intro id2 hne
        show findTask ((steps.foldl (fun acc s => acc.runStep now id s)
            (m.runStep now id st)))._taskList id2 = _
        rw [h2.1 id2 hne, h1.1 id2 hne]
      · show (steps.foldl (fun acc s => acc.runStep now id s)
            (m.runStep now id st)).released = _
        rw [h2.2.1, h1.2.1]

/-! ## Facts about cancelAll -/

theorem cancelStep_events (acc : TaskManager) (t : Task) :
    (acc.cancelStep t).events = acc.events := by
  by_cases h : t.state.isTerminal = true
  · simp [TaskManager.cancelStep, h]
  · simp [TaskManager.cancelStep, h, TaskManager.requestCancel, TaskManager.updateTask]

theorem cancelStep_released (acc : TaskManager) (t : Task) :
    (acc.cancelStep t).released = acc.released := by
  by_cases h : t.state.isTerminal = true
  · simp [TaskManager.cancelStep, h]
  · simp [TaskManager.cancelStep, h, TaskManager.requestCancel, TaskManager.updateTask]

theorem cancelStep_jobs (acc : TaskManager) (t : Task) :
    (acc.cancelStep t).jobs = acc.jobs := by
  by_cases h : t.state.isTerminal = true
  · simp [TaskManager.cancelStep, h]
  · simp [TaskManager.cancelStep, h, TaskManager.requestCancel, TaskManager.updateTask]

theorem cancelStep_length (acc : TaskManager) (t : Task) :
    (acc.cancelStep t)._taskList.length = acc._taskList.length := by
  by_cases h : t.state.isTerminal = true
  · simp [TaskManager.cancelStep, h]
  · simp [TaskManager.cancelStep, h, TaskManager.requestCancel, TaskManager.updateTask,
      updateTaskL]

theorem cancelStep_of_terminal {acc : TaskManager} {t : Task}
    (h : t.state.isTerminal = true) : acc.cancelStep t = acc := by
  simp [TaskManager.cancelStep, h]

theorem cancelStep_of_nonterminal {acc : TaskManager} {t : Task}
    (h : ¬t.state.isTerminal = true) : acc.cancelStep t = acc.requestCancel t.id := by
  simp [TaskManager.cancelStep, h]

theorem cancelStep_isSome (acc : TaskManager) (t : Task) (id : TaskId)
    (h : (findTask acc._taskList id).isSome = true) :
    (findTask (acc.cancelStep t)._taskList id).isSome = true := by
  by_cases ht : t.state.isTerminal = true
  · rw [cancelStep_of_terminal ht]
    exact h
  · rw [cancelStep_of_nonterminal ht]
    by_cases hid : id = t.id
    · show (findTask (updateTaskL t.id setCancelRequested acc._taskList) id).isSome = true
      rw [hid, findTask_updateTaskL_same setCancelRequested (fun _ => rfl)]
      rw [hid] at h
      cases hf : findTask acc._taskList t.id with
      | none =>
          rw [hf] at h
          cases h
      | some u => rfl
    · show (findTask (updateTaskL t.id setCancelRequested acc._taskList) id).isSome = true
      rw [findTask_updateTaskL_other setCancelRequested (fun _ => rfl) _ hid]
      exact h

theorem cancelStep_flag (acc : TaskManager) (t : Task) (id : TaskId)
    (h : ∃ u, findTask acc._taskList id = some u ∧ u.cancelRequested = true) :
    ∃ u2, findTask (acc.cancelStep t)._taskList id = some u2 ∧
      u2.cancelRequested = true := by
  rcases h with ⟨u, hu, hflag⟩
  by_cases ht : t.state.isTerminal = true
  · exact ⟨u, by rw [cancelStep_of_terminal ht]; exact hu, hflag⟩
  · rw [cancelStep_of_nonterminal ht]
    by_cases hid : id = t.id
    · refine ⟨setCancelRequested u, ?_, rfl⟩
      show findTask (updateTaskL t.id setCancelRequested acc._taskList) id = _
      rw [hid, findTask_updateTaskL_same setCancelRequested (fun _ => rfl)]
      rw [hid] at hu
      rw [hu]
      rfl
    · refine ⟨u, ?_, hflag⟩
      show findTask (updateTaskL t.id setCancelRequested acc._taskList) id = _
      rw [findTask_updateTaskL_other setCancelRequested (fun _ => rfl) _ hid]
      exact hu

theorem cancelFold_events (l : List Task) :
    ∀ acc : TaskManager, (l.foldl TaskManager.cancelStep acc).events = acc.events := by
  induction l with
  | nil => intro acc; rfl
  | cons t l ih =>
      intro acc
      show (l.foldl TaskManager.cancelStep (acc.cancelStep t)).events = _
      rw [ih (acc.cancelStep t), cancelStep_events]

theorem cancelFold_released (l : List Task) :
    ∀ acc : TaskManager, (l.foldl TaskManager.cancelStep acc).released = acc.released := by
  induction l with
  | nil => intro acc; rfl
  | cons t l ih =>
      intro acc
      show (l.foldl TaskManager.cancelStep (acc.cancelStep t)).released = _
      rw [ih (acc.cancelStep t), cancelStep_released]

theorem cancelFold_jobs (l : List Task) :
    ∀ acc : TaskManager, (l.foldl TaskManager.cancelStep acc).jobs = acc.jobs := by
  induction l with
  | nil => intro acc; rfl
  | cons t l ih =>
      intro acc
      show (l.foldl TaskManager.cancelStep (acc.cancelStep t)).jobs = _
      rw [ih (acc.cancelStep t), cancelStep_jobs]

theorem cancelFold_length (l : List Task) :
    ∀ acc : TaskManager,
      (l.foldl TaskManager.cancelStep acc)._taskList.length = acc._taskList.length := by
  induction l with
  | nil => intro acc; rfl
  | cons t l ih =>
      intro acc
      show (l.foldl TaskManager.cancelStep (acc.cancelStep t))._taskList.length = _
      rw [ih (acc.cancelStep t), cancelStep_length]

theorem cancelFold_flag (l : List Task) :
    ∀ (acc : TaskManager) (id : TaskId),
      (∃ u, findTask acc._taskList id = some u ∧ u.cancelRequested = true) →
      ∃ u2, findTask (l.foldl TaskManager.cancelStep acc)._taskList id = some u2 ∧
        u2.cancelRequested = true := by
  induction l with
  | nil => intro acc id h; exact h
  | cons t l ih =>
      intro acc id h
      exact ih (acc.cancelStep t) id (cancelStep_flag acc t id h)

theorem findTask_isSome_of_mem {t : Task} {l : List Task} (h : t ∈ l) :
    (findTask l t.id).isSome = true := by
  rw [findTask, List.find?_isSome]
  exact ⟨t, h, by simp⟩

theorem cancelFold_main (l : List Task) :
    ∀ acc : TaskManager,
      (∀ t ∈ l, (findTask acc._taskList t.id).isSome = true) →
      ∀ t ∈ l, t.state.isTerminal = false →
        ∃ u, findTask (l.foldl TaskManager.cancelStep acc)._taskList t.id = some u ∧
          u.cancelRequested = true := by
  induction l with
  | nil =>
      intro acc _ t hmem
      cases hmem
  | cons hd tl ih =>
      intro acc hpres t hmem hterm
      have hpres2 : ∀ u ∈ tl, (findTask (acc.cancelStep hd)._taskList u.id).isSome = true :=
        fun u hu => cancelStep_isSome acc hd u.id (hpres u (List.mem_cons_of_mem hd hu))
      rcases List.mem_cons.mp hmem with he | hm
      · subst he
        apply cancelFold_flag tl (acc.cancelStep t) t.id
        have hp := hpres t (List.mem_cons_self _ _)
        cases hf : findTask acc._taskList t.id with
        | none =>
            rw [hf] at hp
            cases hp
        | some u =>
            refine ⟨setCancelRequested u, ?_, rfl⟩
            rw [cancelStep_of_nonterminal (by rw [hterm]; exact Bool.false_ne_true)]
            show findTask (updateTaskL t.id setCancelRequested acc._taskList) t.id = _
            rw [findTask_updateTaskL_same setCancelRequested (fun _ => rfl), hf]
            rfl
      · exact ih (acc.cancelStep hd) hpres2 t hm hterm

/-! ## Reference counting arithmetic -/

theorem releaseN_live : ∀ (k n : Nat), k < n →
    releaseN k (RcTask.mk n false) = RcTask.mk (n - k) false := by
  intro k
  induction k with
  | zero =>
      intro n _
      simp [releaseN]
  | succ k ih =>
      intro n h
      show releaseN k (RcTask.release ⟨n, false⟩) = _
      have hrel : RcTask.release ⟨n, false⟩ = ⟨n - 1, false⟩ := by
        simp only [RcTask.release]
        rw [if_neg (by omega)]
      rw [hrel, ih (n - 1) (by omega)]
      have : n - 1 - k = n - (k + 1) := by omega
      rw [this]

theorem releaseN_destroys : ∀ n : Nat, 1 ≤ n →
    (releaseN n (RcTask.mk n false)).destroyed = true := by
  intro n
  induction n with
  | zero =>
      intro h
      cases h
  | succ k ih =>
      intro _
      rcases Nat.eq_zero_or_pos k with h0 | hpos
      · subst h0
        decide
      · show (releaseN k (RcTask.release ⟨k + 1, false⟩)).destroyed = true
        have hrel : RcTask.release ⟨k + 1, false⟩ = ⟨k, false⟩ := by
          simp only [RcTask.release]
          rw [if_neg (by omega)]
          simp
        rw [hrel]
        exact ih hpos

/-! ## Concrete data used by witnesses and the counterexample -/

def wtTask : Task :=
  { id := 1, name := "w", state := .idle, progress := 0, cancelRequested := false }

def wtTrace : List (Nat × Cmd) :=
  [(0, .cstart wtTask), (1, .cstarted 1), (2, .cprogress 1 1), (3, .cfinished 1)]

def wtMgr : TaskManager :=
  runTrace TaskManager.new [(0, .cstart wtTask), (0, .cstarted 1), (0, .cprogress 1 1)]

def wtMgrStarting : TaskManager := runTrace TaskManager.new [(0, .cstart wtTask)]

def wtBadTask : Task :=
  { id := 5, name := "x", state := .running, progress := 0, cancelRequested := false }

def cxTask1 : Task :=
  { id := 1, name := "a", state := .idle, progress := 0, cancelRequested := false }

def cxTask2 : Task :=
  { id := 2, name := "b", state := .idle, progress := 0, cancelRequested := false }

def cxTrace : List (Nat × Cmd) :=
  [(0, .cstart cxTask1), (0, .cstarted 1), (0, .cprogress 1 1),
   (10, .cstart cxTask2), (10, .cstarted 2), (20, .cprogress 2 1)]

/-! ## The claims -/

/-- C1 (amended): for every TaskManager instance, progress events for the whole
manager are published no more often than once per
`MIN_PROGRESS_NOTIFICATION_INTERVAL` (100 ms): in any trace from a fresh manager,
the publication times of consecutive progress events are at least the interval
apart.  Started events and the events accompanying a terminal transition are never
suppressed by the throttle: they are appended to the publication sequence
unconditionally.  (The claim's further exception — that the first progress event
after a task starts is never suppressed — does not hold; see the
counterexample.) -/
theorem progress_throttle_rate_limit :
    (∀ cs : List (Nat × Cmd),
      sepOk (progressTimes (runTrace TaskManager.new cs).events) = true)
    ∧ (∀ (m : TaskManager) (now : Nat) (id : TaskId),
        (m.taskStarted now id).events = m.events ++ [(now, Event.started id)])
    ∧ (∀ (m : TaskManager) (now : Nat) (id : TaskId),
        (m.taskFinished now id).events = m.events ++ [(now, Event.finished id)])
    ∧ (∀ (m : TaskManager) (now : Nat) (id : TaskId) (e : Err),
        (m.taskFailed now id e).events = m.events ++ [(now, Event.failed id e)]) := by
  refine ⟨?_, fun _ _ _ => rfl, fun _ _ _ => rfl, fun _ _ _ _ => rfl⟩
  intro cs
  exact (throttleInv_runTrace cs throttleInv_new).1

/-- C1 counterexample: a valid chronological trace in which task 2's first (and
only) progress report after it starts is dropped by the throttle, because task 1
published a progress event 20 ms earlier: no progress event for task 2 is ever
published, even though its started event was and its stored progress value was
updated. -/
theorem first_progress_after_start_can_be_suppressed :
    validTrace TaskManager.new cxTrace = true
    ∧ monoTimes (cxTrace.map Prod.fst) = true
    ∧ countEv (isProgressFor 2) (runTrace TaskManager.new cxTrace).events = 0
    ∧ countEv (isStartedFor 2) (runTrace TaskManager.new cxTrace).events = 1
    ∧ stateOf (runTrace TaskManager.new cxTrace) 2 = some .running
    ∧ (findTask (runTrace TaskManager.new cxTrace)._taskList 2).map Task.progress
        = some 1 := by
  refine ⟨rfl, rfl, rfl, rfl, rfl, rfl⟩

/-- C2: along every valid trace of the manager, the states a task is observed in
form a path in the transition graph starting from `Idle` (consecutive observations
are either equal or joined by a graph edge, so no transition skips a predecessor
and none leaves a terminal state), and at most one started, one cancelled and one
terminal event are published for the task. -/
theorem task_states_follow_transition_graph (cs : List (Nat × Cmd)) (id : TaskId)
    (h : validTrace TaskManager.new cs = true) :
    pathOk (TaskState.idle :: observed TaskManager.new id cs) = true
    ∧ countEv (isStartedFor id) (runTrace TaskManager.new cs).events ≤ 1
    ∧ countEv (isCancelledFor id) (runTrace TaskManager.new cs).events ≤ 1
    ∧ countEv (isTerminalEvFor id) (runTrace TaskManager.new cs).events ≤ 1 := by
  have hInvF : Inv (runTrace TaskManager.new cs) := inv_runTrace h Inv_new
  refine ⟨?_, ?_, hInvF.cancelledBound id, ?_⟩
  · exact (observed_chain cs TaskManager.new id h Inv_new).1 rfl
  · rw [hInvF.startedCount id]
    cases hs : stateOf (runTrace TaskManager.new cs) id with
    | none => decide
    | some s => cases s <;> decide
  · rw [hInvF.termCount id]
    by_cases hm : id ∈ idsOf (runTrace TaskManager.new cs).released
    · rw [if_pos hm]
    · rw [if_neg hm]
      decide

theorem task_states_follow_transition_graph_witness :
    pathOk (TaskState.idle :: observed TaskManager.new 1 wtTrace) = true ∧
    countEv (isTerminalEvFor 1) (runTrace TaskManager.new wtTrace).events ≤ 1 := by
  have h := task_states_follow_transition_graph wtTrace 1 (by decide)
  exact ⟨h.1, h.2.2.2⟩

/-- C3: whenever `joinAll` can return — the pool reports no outstanding work,
neither manager-submitted nor submitted by other clients of the shared pool —
every task submitted through `start` before the call has reached a terminal
state; in particular `joinAll` also waits for the foreign work
(`joinAllReady` requires the foreign-job count to be zero as well). -/
theorem joinAll_waits_for_all_tasks (cs : List (Nat × Cmd))
    (h : validTrace TaskManager.new cs = true)
    (hready : (runTrace TaskManager.new cs).joinAllReady = true) :
    (∀ id ∈ startedIdsOf cs, ∃ s, stateOf (runTrace TaskManager.new cs) id = some s ∧
      s.isTerminal = true)
    ∧ (runTrace TaskManager.new cs).foreignJobs = 0 := by
  have hInvF : Inv (runTrace TaskManager.new cs) := inv_runTrace h Inv_new
  have hj : (runTrace TaskManager.new cs).jobs = [] ∧
      (runTrace TaskManager.new cs).foreignJobs = 0 := by
    simpa [TaskManager.joinAllReady, Bool.and_eq_true, decide_eq_true_eq] using hready
  refine ⟨?_, hj.2⟩
  intro id hid
  rcases started_state_some cs TaskManager.new id h Inv_new hid with ⟨s, hs⟩
  refine ⟨s, hs, ?_⟩
  have hreg : (runTrace TaskManager.new cs)._taskList = [] :=
    registry_empty_of_jobs_nil hInvF hj.1
  simp only [stateOf, hreg] at hs
  rcases Option.map_eq_some'.mp hs with ⟨u, hu, hust⟩
  rcases findTask_some_facts hu with ⟨_, humem⟩
  have hterm := hInvF.relTerm u humem
  rw [← hust]
  exact hterm

theorem joinAll_waits_for_all_tasks_witness :
    ∃ s, stateOf (runTrace TaskManager.new wtTrace) 1 = some s ∧
      s.isTerminal = true := by
  exact (joinAll_waits_for_all_tasks wtTrace (by decide) (by decide)).1 1 (by decide)

/-- C4: `start` validates that the task is in the `Idle` state.  When it is not,
the call fails synchronously with a precondition error returned to the caller and
nothing is published through the notification bus; when the precondition holds,
the task is registered (ownership transferred, state `Starting`, appended to the
registry), one unit of work is submitted to the pool, and no lifecycle event has
been published yet — execution has not happened. -/
theorem start_validates_idle_precondition (m : TaskManager) (pTask : Task) (cpu : Int) :
    (¬pTask.state = .idle → m.start pTask cpu = Except.error "task not idle")
    ∧ (pTask.state = .idle →
        m.start pTask cpu = Except.ok (m.registerTask pTask)
        ∧ (m.registerTask pTask).events = m.events
        ∧ (m.registerTask pTask)._taskList = m._taskList ++ [setStarting pTask]
        ∧ (m.registerTask pTask).jobs = m.jobs ++ [pTask.id]
        ∧ (m.registerTask pTask).released = m.released) := by
  constructor
  · intro h
    simp [TaskManager.start, h]
  · intro h
    exact ⟨by simp [TaskManager.start, h], rfl, rfl, rfl, rfl⟩

theorem start_validates_idle_precondition_witness :
    TaskManager.new.start wtBadTask (-1) = Except.error "task not idle"
    ∧ TaskManager.new.start wtTask (-1)
        = Except.ok (TaskManager.new.registerTask wtTask) := by
  exact ⟨(start_validates_idle_precondition TaskManager.new wtBadTask (-1)).1 (by decide),
    ((start_validates_idle_precondition TaskManager.new wtTask (-1)).2 (by decide)).1⟩

/-- C5: along every valid trace, a task released from the registry is in a
terminal state and a terminal event for it has been published, and every task
still present in the registry has not been released (is not destroyed) and is in
a non-terminal state. -/
theorem release_only_after_terminal_event (cs : List (Nat × Cmd))
    (h : validTrace TaskManager.new cs = true) :
    (∀ t ∈ (runTrace TaskManager.new cs).released,
      t.state.isTerminal = true ∧
      ∃ p ∈ (runTrace TaskManager.new cs).events, isTerminalEvFor t.id p.2 = true)
    ∧ (∀ t ∈ (runTrace TaskManager.new cs)._taskList,
        t.id ∉ idsOf (runTrace TaskManager.new cs).released ∧
        t.state.isTerminal = false) := by
  have hInvF : Inv (runTrace TaskManager.new cs) := inv_runTrace h Inv_new
  constructor
  · intro t ht
    exact ⟨hInvF.relTerm t ht, hInvF.relEv t ht⟩
  · intro t ht
    exact ⟨hInvF.disj t.id (List.mem_map_of_mem Task.id ht), hInvF.regNonTerm t ht⟩

theorem release_only_after_terminal_event_witness :
    (Task.mk 1 "w" TaskState.finished 1 false).state.isTerminal = true := by
  exact ((release_only_after_terminal_event wtTrace (by decide)).1 _ (by decide)).1

/-- C6: `taskProgress` always updates the stored progress value of the task, so a
`taskList()` snapshot taken afterwards reads the most recent reported value; and
when the whole-manager throttle is closed (elapsed time below the minimum
interval) the progress event is dropped — the publication sequence is
unchanged. -/
theorem throttled_progress_still_updates_value (m : TaskManager) (now : Nat)
    (id : TaskId) (v : Rat) (h : (findTask m._taskList id).isSome = true) :
    (findTask (m.taskProgress now id v).taskList id).map Task.progress = some v
    ∧ (throttleOpen now m._lastProgressNotification = false →
        (m.taskProgress now id v).events = m.events) := by
  constructor
  · show (findTask (m.taskProgress now id v)._taskList id).map Task.progress = some v
    rw [taskProgress_taskList, findTask_updateTaskL_same (setProgress v) (fun _ => rfl)]
    cases hf : findTask m._taskList id with
    | none =>
        rw [hf] at h
        cases h
    | some u => rfl
  · intro hcl
    simp [TaskManager.taskProgress, TaskManager.updateTask, TaskManager.postNotification, hcl]

theorem throttled_progress_still_updates_value_witness :
    (findTask (wtMgr.taskProgress 5 1 2).taskList 1).map Task.progress = some 2
    ∧ (wtMgr.taskProgress 5 1 2).events = wtMgr.events := by
  have h := throttled_progress_still_updates_value wtMgr 5 1 2 (by decide)
  exact ⟨h.1, h.2 (by decide)⟩

/-- C7: when a task body raises an error, the manager's execution wrapper reports
it as a task failure: the task ends in the `Failed` state, the last published
event is the `Failed` event carrying the error, and the observed state of every
other task is unchanged — the failure affects neither the manager nor the other
tasks. -/
theorem run_error_reported_as_failed (m : TaskManager) (now : Nat) (id : TaskId)
    (e : Err) (steps : List RunStep)
    (hreg : regStateIs m id .starting = true) (hrel : id ∉ idsOf m.released) :
    stateOf (m.runTask now id (Body.mk steps (some e))) id = some .failed
    ∧ (m.runTask now id (Body.mk steps (some e))).events.getLast?
        = some (now, Event.failed id e)
    ∧ ∀ id2, id2 ≠ id →
        stateOf (m.runTask now id (Body.mk steps (some e))) id2 = stateOf m id2 := by
  rcases regStateIs_iff.mp hreg with ⟨t, hf, _⟩
  have hm1_some : (findTask (m.taskStarted now id)._taskList id).isSome = true := by
    show (findTask (updateTaskL id setRunning m._taskList) id).isSome = true
    rw [findTask_updateTaskL_same setRunning (fun _ => rfl), hf]
    rfl
  have hfacts := runSteps_facts now id steps (m.taskStarted now id) hm1_some
  have hrt : m.runTask now id (Body.mk steps (some e)) =
      (steps.foldl (fun acc s => acc.runStep now id s) (m.taskStarted now id)).taskFailed
        now id e := rfl
  rcases Option.isSome_iff_exists.mp hfacts.2.2 with ⟨t2, ht2⟩
  have hrel2 : id ∉ idsOf (steps.foldl (fun acc s => acc.runStep now id s)
      (m.taskStarted now id)).released := by
    rw [hfacts.2.1]
    exact hrel
  refine ⟨?_, ?_, ?_⟩
  · rw [hrt]
    exact stateOf_taskFailed_same ht2 hrel2 now
  · rw [hrt]
    have hev2 : ((steps.foldl (fun acc s => acc.runStep now id s)
        (m.taskStarted now id)).taskFailed now id e).events =
        (steps.foldl (fun acc s => acc.runStep now id s) (m.taskStarted now id)).events
          ++ [(now, Event.failed id e)] := rfl
    rw [hev2, List.getLast?_concat]
  · intro id2 hne
    rw [hrt, stateOf_taskFailed_other hne now]
    apply stateOf_congr
    · rw [hfacts.1 id2 hne]
      exact findTask_updateTaskL_other setRunning (fun _ => rfl) _ hne
    · rw [hfacts.2.1]
      rfl

theorem run_error_reported_as_failed_witness :
    stateOf (wtMgrStarting.runTask 1 1 (Body.mk [] (some "boom"))) 1
      = some .failed := by
  exact (run_error_reported_as_failed wtMgrStarting 1 1 "boom" [] (by decide) (by decide)).1

/-- C8: `startSync` registers the task under the same `Idle` precondition and then
executes its full lifecycle inline before returning: on the success path the task
passes through exactly `Starting` (on registration), `Running` (when the body
begins), and `Finished`, and the published events are exactly one started event,
one (unthrottled, first-ever) progress event and one finished event, after which
the task has left the registry. -/
theorem startSync_inline_lifecycle (now : Nat) (nm : String) (v : Rat) :
    TaskManager.new.start (Task.mk 1 nm .idle 0 false) (-1)
        = Except.ok (TaskManager.new.registerTask (Task.mk 1 nm .idle 0 false))
    ∧ stateOf (TaskManager.new.registerTask (Task.mk 1 nm .idle 0 false)) 1
        = some .starting
    ∧ stateOf ((TaskManager.new.registerTask (Task.mk 1 nm .idle 0 false)).taskStarted
        now 1) 1 = some .running
    ∧ TaskManager.new.startSync now (Task.mk 1 nm .idle 0 false)
        (Body.mk [RunStep.report v] none)
        = Except.ok ((TaskManager.new.registerTask (Task.mk 1 nm .idle 0 false)).runTask
            now 1 (Body.mk [RunStep.report v] none))
    ∧ ((TaskManager.new.registerTask (Task.mk 1 nm .idle 0 false)).runTask now 1
        (Body.mk [RunStep.report v] none)).events
        = [(now, Event.started 1), (now, Event.progress 1 v), (now, Event.finished 1)]
    ∧ stateOf ((TaskManager.new.registerTask (Task.mk 1 nm .idle 0 false)).runTask now 1
        (Body.mk [RunStep.report v] none)) 1 = some .finished
    ∧ ((TaskManager.new.registerTask (Task.mk 1 nm .idle 0 false)).runTask now 1
        (Body.mk [RunStep.report v] none))._taskList = [] := by
  exact ⟨rfl, rfl, rfl, rfl, rfl, rfl, rfl⟩

/-- C9: `cancelAll` iterates a snapshot of the registry and requests cancellation
of every task found in a non-terminal state: afterwards every non-terminal task of
the snapshot has its cancellation flag set, while no event is published and the
registry size, the release history and the outstanding pool work are all
unchanged — nothing is waited for. -/
theorem cancelAll_requests_cancellation (m : TaskManager) :
    (m.cancelAll).events = m.events
    ∧ (m.cancelAll).count = m.count
    ∧ (m.cancelAll).released = m.released
    ∧ (m.cancelAll).jobs = m.jobs
    ∧ ∀ t ∈ m.taskList, t.state.isTerminal = false →
        ∃ u, findTask (m.cancelAll)._taskList t.id = some u ∧
          u.cancelRequested = true := by
  refine ⟨cancelFold_events _ _, ?_, cancelFold_released _ _, cancelFold_jobs _ _, ?_⟩
  · show (m.taskList.foldl TaskManager.cancelStep m)._taskList.length
        = m._taskList.length
    exact cancelFold_length _ _
  · intro t ht hterm
    exact cancelFold_main m.taskList m (fun u hu => findTask_isSome_of_mem hu) t ht hterm

theorem cancelAll_requests_cancellation_witness :
    ∃ u, findTask (wtMgrStarting.cancelAll)._taskList 1 = some u ∧
      u.cancelRequested = true := by
  exact (cancelAll_requests_cancellation wtMgrStarting).2.2.2.2
    (setStarting wtTask) (by decide) (by decide)

/-- C10: task handles are reference counted (`TaskPtr` is `AutoPtr<Task>`, and
`taskList()` copies the handles): with `n` live handles, duplicating a handle for
a snapshot and then dropping the manager's handle leaves the object alive with the
same `n` references — the manager's release on completion only drops the
manager's reference — and the object is destroyed exactly when the last handle is
dropped: dropping fewer than `n` handles never destroys it, dropping all `n`
does. -/
theorem taskPtr_snapshot_keeps_task_alive (n : Nat) (h : 1 ≤ n) :
    RcTask.release (RcTask.dup (RcTask.mk n false)) = RcTask.mk n false
    ∧ (releaseN n (RcTask.mk n false)).destroyed = true
    ∧ ∀ k, k < n → (releaseN k (RcTask.mk n false)).destroyed = false := by
  refine ⟨?_, releaseN_destroys n h, ?_⟩
  · show RcTask.release ⟨n + 1, false⟩ = ⟨n, false⟩
    simp only [RcTask.release]
    rw [if_neg (by omega)]
    simp
  · intro k hk
    rw [releaseN_live k n hk]

theorem taskPtr_snapshot_keeps_task_alive_witness :
    RcTask.release (RcTask.dup (RcTask.mk 2 false)) = RcTask.mk 2 false
    ∧ (releaseN 1 (RcTask.mk 2 false)).destroyed = false := by
  have h := taskPtr_snapshot_keeps_task_alive 2 (by decide)
  exact ⟨h.1, h.2.2 1 (by decide)⟩

end Poco
